import Mathlib

/-!
# kd-tree builder of `kdtree.c`

A shallow embedding of the kd-tree core of `kdtree.c` (`kdt_compar`, `kdt_new_in`,
`kdt_cleanup`, `kdt_new`, `dim_compar`, `calc_dimstats`) and the properties of it
that are checked.

Modelling conventions.

* The row-major `int` buffer is a list of tuples; a pointer into it is the index of
  a tuple, so the C pointer `points + i*k` is the index `points + i`.  The tuple
  counts and the depths are natural numbers: they are taken to fit a C `int`.
  The `int` products `median*t->k` and `(median+1)*t->k` that the code adds to
  `points` are recorded by `kdt_new_in_traced`, the builder with a record of
  its index computations.
* The components of the tuples are integers.  Where the code subtracts two of
  them, or two values computed from them, the result is reduced to 32 bits by
  `wrap32`: an `int` overflow wraps around, as it does on the usual two's
  complement targets.
* `qsort_r` and `qsort` belong to the C library.  They are parameters of the
  functions that call them, and the theorems state what they need of them.
* `malloc` always succeeds; the number of calls is counted in the memory state.
* A result `none` stands for a run the C standard leaves undefined (a modulo by
  zero, a read outside `order` or outside the buffer, a read through a `NULL`
  pointer), or for exhausted fuel.
* The tree is a value: a node is named by the tuple index in its `value` field,
  and the calls of `free` are recorded as the list of the nodes released.
-/

namespace KdTree

/-- One record of the buffer: `k` consecutive `int` components. -/
abbrev Tuple := List Int

/-- The largest C `int`. -/
def INT_MAX : Int := 2147483647

/-- The smallest C `int`. -/
def INT_MIN : Int := -2147483648

/-- Reduction of an integer to the 32-bit two's complement range. -/
def wrap32 (x : Int) : Int := (x + 2147483648) % 4294967296 - 2147483648

/-- Component `off` of a tuple, `((int* )a)[off]`; a tuple of the buffer has `k`
components and `off` is below `k` when the axis order is a permutation of
`0..k-1` (the value is 0 otherwise). -/
def comp (a : Tuple) (off : Nat) : Int := a.getD off 0

/-- The C library sort: it receives the comparison function and the window. -/
abbrev Sorter (α : Type) := (α → α → Int) → List α → List α

/-- The memory the functions work on: the tuple buffer and the allocation counters. -/
structure Mem where
  buf : List Tuple
  mallocs : Nat
  frees : Nat
  deriving DecidableEq

/-- A `kd_node*`: `NULL`, or a node with its four fields.  `value` is the index
of the tuple the node points to. -/
inductive kd_node where
  | NULL : kd_node
  | node (value : Nat) (nb : Nat) (left : kd_node) (right : kd_node) : kd_node
  deriving DecidableEq

/-- The `kd_tree` record. -/
structure kd_tree where
  k : Nat
  root : kd_node
  deriving DecidableEq

/-- The comparison function handed to `qsort_r`; `off` is the value behind the
third argument. -/
def kdt_compar (a b : Tuple) (off : Nat) : Int :=
  wrap32 (comp a off - comp b off)

/-- The window of `nb` tuples that starts at tuple `points`. -/
def window (buf : List Tuple) (points nb : Nat) : List Tuple :=
  (buf.drop points).take nb

/-- The buffer after `qsort_r(points, nb, k*sizeof(int), compar, arg)`. -/
def sort_window (qsort_r : Sorter Tuple) (cmp : Tuple → Tuple → Int)
    (buf : List Tuple) (points nb : Nat) : List Tuple :=
  buf.take points ++ qsort_r cmp (window buf points nb) ++ buf.drop (points + nb)

/-- The recursive builder `kdt_new_in`, by recursion on fuel.  `k` is `t->k`. -/
def kdt_new_in_fuel (qsort_r : Sorter Tuple) (k : Nat) (order : List Nat) :
    Nat → Mem → Nat → Nat → Nat → Option (kd_node × Mem)
  | 0, _, _, _, _ => none
  | fuel + 1, m, points, nb_points, depth =>
    if nb_points = 0 then some (kd_node.NULL, m)
    else if k = 0 then none
    else
      match order[depth % k]? with
      | none => none
      | some axis =>
        let m1 : Mem := { m with mallocs := m.mallocs + 1 }
        if nb_points ≤ 8 then
          some (kd_node.node points nb_points kd_node.NULL kd_node.NULL, m1)
        else if m1.buf.length < points + nb_points then none
        else
          let m2 : Mem :=
            { m1 with buf := sort_window qsort_r (fun a b => kdt_compar a b axis)
                               m1.buf points nb_points }
          let median := nb_points / 2
          match kdt_new_in_fuel qsort_r k order fuel m2 points median (depth + 1) with
          | none => none
          | some (left, m3) =>
            match kdt_new_in_fuel qsort_r k order fuel m3 (points + (median + 1))
                (nb_points - median - 1) (depth + 1) with
            | none => none
            | some (right, m4) =>
              some (kd_node.node (points + median) 1 left right, m4)

/-- The builder `kdt_new_in`: a window of `nb_points` tuples needs no more than
`nb_points + 1` nested calls. -/
def kdt_new_in (qsort_r : Sorter Tuple) (k : Nat) (order : List Nat)
    (m : Mem) (points nb_points depth : Nat) : Option (kd_node × Mem) :=
  kdt_new_in_fuel qsort_r k order (nb_points + 1) m points nb_points depth

/-- The entry point `kdt_new`: it stores `k` and builds the root with `k` as depth. -/
def kdt_new (qsort_r : Sorter Tuple) (m : Mem) (points nb_points k : Nat)
    (order : List Nat) : Option (kd_tree × Mem) :=
  match kdt_new_in qsort_r k order m points nb_points k with
  | none => none
  | some (root, m1) => some ({ k := k, root := root }, m1)

/-- The record `dimstats`. -/
structure dimstats where
  min : Int
  max : Int
  diff : Int
  idx : Nat
  deriving DecidableEq

/-- The comparison function handed to `qsort` by `calc_dimstats`. -/
def dim_compar (a b : dimstats) : Int := wrap32 (a.diff - b.diff)

/-- The body of the inner loop of `calc_dimstats` for one value `v`. -/
def dimstats.update (ds : dimstats) (v : Int) : dimstats :=
  let ds1 : dimstats := if v < ds.min then { ds with min := v } else ds
  if v > ds1.max then { ds1 with max := v } else ds1

/-- The first loop of `calc_dimstats`: the initial statistics. -/
def dimstats_init (dim : Nat) : List dimstats :=
  (List.range dim).map (fun j => { min := INT_MAX, max := INT_MIN, diff := INT_MAX, idx := j })

/-- One pass of the inner loop of `calc_dimstats` over the tuple `tup`. -/
def dimstats_scan (d : List dimstats) (tup : Tuple) : List dimstats :=
  List.zipWith (fun ds j => ds.update (comp tup j)) d (List.range d.length)

/-- The third loop of `calc_dimstats`: `diff = max - min` in `int`. -/
def dimstats_diff (d : List dimstats) : List dimstats :=
  d.map (fun ds => { ds with diff := wrap32 (ds.max - ds.min) })

/-- The function `calc_dimstats`: the order array it returns and the memory after
the call. -/
def calc_dimstats (qsort : Sorter dimstats) (m : Mem) (nb dim : Nat) :
    Option (List Nat × Mem) :=
  if m.buf.length < nb then none
  else
    let d1 := (m.buf.take nb).foldl dimstats_scan (dimstats_init dim)
    let d2 := dimstats_diff d1
    let d3 := qsort dim_compar d2
    some (d3.map (fun ds => ds.idx), { m with mallocs := m.mallocs + 2, frees := m.frees + 1 })

/-- A sort by insertion that follows the comparison function: an instance of the
C library sort. -/
def insertion_qsort {α : Type} : Sorter α :=
  fun cmp l => List.insertionSort (fun a b => cmp a b ≤ 0) l

/-- The number of nodes of a tree, that is, of `malloc` calls that built it. -/
def kd_node.size : kd_node → Nat
  | kd_node.NULL => 0
  | kd_node.node _ _ left right => 1 + left.size + right.size

/-- A node without children (`left` and `right` both `NULL`) is a leaf. -/
def kd_node.is_leaf : kd_node → Bool
  | kd_node.NULL => false
  | kd_node.node _ _ left right => decide (left = kd_node.NULL) && decide (right = kd_node.NULL)

/-- The tuples a tree reaches in the buffer `buf`, from left to right: a leaf
gives the run of `nb` tuples at `value`, an internal node the tuples of its left
subtree, the one tuple at `value`, and the tuples of its right subtree. -/
def kd_node.tuples (buf : List Tuple) : kd_node → List Tuple
  | kd_node.NULL => []
  | kd_node.node value nb left right =>
    if left = kd_node.NULL ∧ right = kd_node.NULL then window buf value nb
    else left.tuples buf ++ window buf value 1 ++ right.tuples buf

/-- The number of tuples a tree holds: `nb` for a leaf, one for an internal node
plus what its subtrees hold. -/
def kd_node.count : kd_node → Nat
  | kd_node.NULL => 0
  | kd_node.node _ nb left right =>
    if left = kd_node.NULL ∧ right = kd_node.NULL then nb
    else left.count + 1 + right.count

/-- The C library sort returns a rearrangement of the window it is given, whatever
the comparison function is. -/
def SortPermutes {α : Type} (s : Sorter α) : Prop :=
  ∀ (cmp : α → α → Int) (l : List α), (s cmp l).Perm l

/-- The run of `kdt_new_in` on a window, as a derivation: `Built depth points w w1 nd`
says that the call at `depth` on the window at `points` with contents `w` leaves
the contents `w1` in the window and returns `nd`. -/
inductive Built (qsort_r : Sorter Tuple) (k : Nat) (order : List Nat) :
    Nat → Nat → List Tuple → List Tuple → kd_node → Prop
  | null (depth points : Nat) : Built qsort_r k order depth points [] [] kd_node.NULL
  | leaf (depth points : Nat) (w : List Tuple) (axis : Nat)
      (h0 : w.length ≠ 0) (h8 : w.length ≤ 8) (ha : order[depth % k]? = some axis) :
      Built qsort_r k order depth points w w
        (kd_node.node points w.length kd_node.NULL kd_node.NULL)
  | split (depth points : Nat) (w s l1 r1 : List Tuple) (axis : Nat) (left right : kd_node)
      (h8 : 8 < w.length) (ha : order[depth % k]? = some axis)
      (hs : s = qsort_r (fun a b => kdt_compar a b axis) w)
      (hl : Built qsort_r k order (depth + 1) points (s.take (w.length / 2)) l1 left)
      (hr : Built qsort_r k order (depth + 1) (points + (w.length / 2 + 1))
              (s.drop (w.length / 2 + 1)) r1 right) :
      Built qsort_r k order depth points w
        (l1 ++ (s.drop (w.length / 2)).take 1 ++ r1)
        (kd_node.node (points + w.length / 2) 1 left right)

/-- The bucket sizes `nb` of the leaves of a tree, from left to right. -/
def kd_node.leaf_sizes : kd_node → List Nat
  | kd_node.NULL => []
  | kd_node.node _ nb left right =>
    if left = kd_node.NULL ∧ right = kd_node.NULL then [nb]
    else left.leaf_sizes ++ right.leaf_sizes

/-- The number of internal nodes of a tree. -/
def kd_node.internal_count : kd_node → Nat
  | kd_node.NULL => 0
  | kd_node.node _ _ left right =>
    if left = kd_node.NULL ∧ right = kd_node.NULL then 0
    else left.internal_count + 1 + right.internal_count

/-- The property `P` holds of every node of a tree. -/
def kd_node.all_nodes (P : kd_node → Prop) : kd_node → Prop
  | kd_node.NULL => True
  | kd_node.node value nb left right =>
    P (kd_node.node value nb left right) ∧ left.all_nodes P ∧ right.all_nodes P

/-- A buffer of ten two-dimensional tuples. -/
def sample10 : List Tuple :=
  [[3, 1], [2, 5], [1, 1], [9, 9], [5, 5], [4, 4], [8, 1], [7, 2], [6, 3], [0, 0]]

/-- A buffer of five two-dimensional tuples. -/
def sample5 : List Tuple := [[3, 1], [2, 5], [1, 1], [9, 9], [5, 5]]

/-- A buffer of twenty two-dimensional tuples. -/
def sample20 : List Tuple :=
  [[13, 1], [2, 5], [11, 1], [9, 9], [5, 5], [4, 4], [18, 1], [7, 2], [6, 3], [0, 0],
   [3, 7], [12, 5], [1, 8], [19, 9], [15, 2], [14, 4], [8, 6], [17, 2], [16, 3], [10, 0]]

/-- The split ordering of a tree in the buffer `buf`: at every internal node, built
at `depth`, with `a = order[depth % k]`, every tuple of the left subtree has its
component `a` at most that of the split tuple, and every tuple of the right
subtree has it at least that. -/
def kd_node.split_ordered (buf : List Tuple) (k : Nat) (order : List Nat) :
    kd_node → Nat → Bool
  | kd_node.NULL, _ => true
  | kd_node.node value _ left right, depth =>
    if left = kd_node.NULL ∧ right = kd_node.NULL then true
    else
      (left.tuples buf).all
          (fun t => decide (comp t (order.getD (depth % k) 0)
                              ≤ comp (buf.getD value []) (order.getD (depth % k) 0))) &&
        (right.tuples buf).all
          (fun t => decide (comp (buf.getD value []) (order.getD (depth % k) 0)
                              ≤ comp t (order.getD (depth % k) 0))) &&
        left.split_ordered buf k order (depth + 1) &&
        right.split_ordered buf k order (depth + 1)

/-- Nine two-dimensional tuples whose first components are `INT_MAX` and `-2`:
the difference of the two does not fit a C `int`. -/
def overflow9 : List Tuple :=
  [[-2, 0], [2147483647, 1], [-2, 2], [2147483647, 3], [-2, 4], [2147483647, 5],
   [-2, 6], [2147483647, 7], [2147483647, 8]]

/-- Follows the words of the spec: the spread of dimension `j` is the maximum
minus the minimum of component `j` over all tuples of the buffer. -/
def spec_spread (buf : List Tuple) (j : Nat) : Int :=
  match buf.map (fun t => comp t j) with
  | [] => 0
  | v :: vs => vs.foldl max v - vs.foldl min v

/-- Two two-dimensional tuples; the spread of dimension 0 does not fit a C `int`. -/
def overflow2 : List Tuple := [[2147483647, 0], [-11, 5]]

/-- The comparison function is consistent on the elements of `l`, as the C
standard asks of the function handed to `qsort`: the two ways of comparing a pair
have opposite signs, and the order it describes is transitive. -/
def Consistent {α : Type} (cmp : α → α → Int) (l : List α) : Prop :=
  (∀ a ∈ l, ∀ b ∈ l, (cmp a b < 0 ↔ 0 < cmp b a)) ∧
  (∀ a ∈ l, ∀ b ∈ l, ∀ c ∈ l, cmp a b ≤ 0 → cmp b c ≤ 0 → cmp a c ≤ 0)

/-- The C library sort puts its input in ascending order of the comparison
function, when that function is consistent on the input. -/
def SortSorts {α : Type} (s : Sorter α) : Prop :=
  ∀ (cmp : α → α → Int) (l : List α), Consistent cmp l →
    (s cmp l).Pairwise (fun a b => cmp a b ≤ 0)

/-- No comparison of two tuples of `buf` overflows: on every component the
difference of two tuples fits a C `int`. -/
def NoOverflow (buf : List Tuple) : Prop :=
  ∀ a ∈ buf, ∀ b ∈ buf, ∀ j : Nat,
    -2147483648 ≤ comp a j - comp b j ∧ comp a j - comp b j ≤ 2147483647

/-- Every component `j < dim` of every tuple of `buf` is a C `int`. -/
def IntComponents (buf : List Tuple) (dim : Nat) : Prop :=
  ∀ t ∈ buf, ∀ j : Nat, j < dim → INT_MIN ≤ comp t j ∧ comp t j ≤ INT_MAX

/-- The inner loop of `calc_dimstats` seen from one record: the values of
dimension `j` of the tuples of `l`, one after the other. -/
def dimstats_column (l : List Tuple) (j : Nat) (ds : dimstats) : dimstats :=
  l.foldl (fun acc t => acc.update (comp t j)) ds

/-- The function `kdt_cleanup(n)`, applied to the pointer stored in `*n`.  The
result is the pointer left in `*n`, the memory after the call, and the nodes
released, in the order of the calls of `free`, each one named by its `value` and
`nb` fields.  The result is `none` when `m->left` is read through a `NULL`
pointer `m`. -/
def kdt_cleanup : kd_node → Mem → Option (kd_node × Mem × List (Nat × Nat))
  | kd_node.NULL, _ => none
  | kd_node.node value nb left right, mem =>
    match (if left = kd_node.NULL then some (left, mem, [])
           else kdt_cleanup left mem) with
    | none => none
    | some (_, mem1, freed1) =>
      match (if right = kd_node.NULL then some (right, mem1, [])
             else kdt_cleanup right mem1) with
      | none => none
      | some (_, mem2, freed2) =>
        some (kd_node.NULL, { mem2 with frees := mem2.frees + 1 },
              freed1 ++ freed2 ++ [(value, nb)])

/-- The nodes of a tree in post-order (left subtree, right subtree, the node
itself), each one named by its `value` and `nb` fields. -/
def kd_node.postorder : kd_node → List (Nat × Nat)
  | kd_node.NULL => []
  | kd_node.node value nb left right => left.postorder ++ right.postorder ++ [(value, nb)]

/-- A node is full: it has no child at all, or it has two children, `nb = 1`, and
at least four tuples in each subtree. -/
def kd_node.full : kd_node → Prop
  | kd_node.NULL => True
  | kd_node.node _ nb left right =>
    (left = kd_node.NULL ∧ right = kd_node.NULL) ∨
    (left ≠ kd_node.NULL ∧ right ≠ kd_node.NULL ∧ nb = 1 ∧
      4 ≤ left.count ∧ 4 ≤ right.count)

/-- A second instance of the C library sort: the insertion sort of the window read
backwards. -/
def reverse_qsort {α : Type} : Sorter α :=
  fun cmp l => insertion_qsort cmp l.reverse

/-- In the run of `kdt_new_in` at `depth` on a window with contents `w`, every
window that gets sorted has pairwise distinct components on the axis it is
sorted on. -/
inductive DistinctKeys (qsort_r : Sorter Tuple) (k : Nat) (order : List Nat) :
    Nat → List Tuple → Prop
  | small (depth : Nat) (w : List Tuple) (h8 : w.length ≤ 8) :
      DistinctKeys qsort_r k order depth w
  | split (depth : Nat) (w : List Tuple) (axis : Nat)
      (h8 : 8 < w.length) (ha : order[depth % k]? = some axis)
      (hd : (w.map (fun t => comp t axis)).Nodup)
      (hl : DistinctKeys qsort_r k order (depth + 1)
              ((qsort_r (fun a b => kdt_compar a b axis) w).take (w.length / 2)))
      (hr : DistinctKeys qsort_r k order (depth + 1)
              ((qsort_r (fun a b => kdt_compar a b axis) w).drop (w.length / 2 + 1))) :
      DistinctKeys qsort_r k order depth w

/-- Nine one-dimensional tuples with pairwise distinct values, among them
`INT_MIN`: its difference to the other values does not fit a C `int`. -/
def distinct9 : List Tuple :=
  [[-2147483648], [0], [1], [2], [3], [4], [5], [6], [7]]

/-- Twenty two-dimensional tuples with the same value on dimension 0; on
dimension 1 the values are `INT_MAX` and `-2`. -/
def ties20 : List Tuple :=
  [[7, 2147483647], [7, -2], [7, 2147483647], [7, -2], [7, 2147483647],
   [7, -2], [7, 2147483647], [7, -2], [7, 2147483647], [7, -2],
   [7, 2147483647], [7, -2], [7, 2147483647], [7, -2], [7, 2147483647],
   [7, -2], [7, 2147483647], [7, -2], [7, 2147483647], [7, -2]]

/-- Twenty two-dimensional tuples with the same value on dimension 0 and small
values on dimension 1. -/
def ties20_small : List Tuple :=
  [[7, 13], [7, 2], [7, 11], [7, 9], [7, 5], [7, 4], [7, 18], [7, 7], [7, 6], [7, 0],
   [7, 3], [7, 12], [7, 1], [7, 19], [7, 15], [7, 14], [7, 8], [7, 17], [7, 16], [7, 10]]

/-- Twenty two-dimensional tuples with pairwise distinct values on each
dimension. -/
def distinct20 : List Tuple :=
  [[13, 1], [2, 15], [11, 0], [9, 19], [5, 5], [4, 14], [18, 11], [7, 2], [6, 3], [0, 10],
   [3, 7], [12, 16], [1, 8], [19, 9], [15, 12], [14, 4], [8, 6], [17, 13], [16, 18],
   [10, 17]]

/-- An index computation of one call of `kdt_new_in`.  `lookup` is the read
`order[depth % t->k]`: the depth, the divisor `t->k`, the index `depth % t->k`
and the axis read.  `split` is the pointer arithmetic of a call on `nb` tuples
with more than eight tuples: `k`, `nb`, `median`, the `int` offsets `median*t->k`
and `(median+1)*t->k` added to `points`, and the numbers of tuples of the two
windows passed on. -/
inductive index_use where
  | lookup (depth divisor slot axis : Nat) : index_use
  | split (k nb median : Nat) (value_off right_off : Int) (left_nb right_nb : Nat) :
      index_use
  deriving DecidableEq

/-- An index computation is in range.  For a `lookup`: the divisor is not zero,
the index is inside the order array and below the divisor, and the axis read
there is below `dim`, the number of components of a tuple.  For a `split`, with
offsets counted in `int` elements from the pointer `points` of the call, whose
window is the elements from `0` up to `nb*k`: the left window, the split tuple
and the right window lie inside the window of the call. -/
def index_use.in_range (order : List Nat) (dim : Nat) : index_use → Prop
  | index_use.lookup depth divisor slot axis =>
    divisor ≠ 0 ∧ slot = depth % divisor ∧ slot < divisor ∧ slot < order.length ∧
      order[slot]? = some axis ∧ axis < dim
  | index_use.split k nb _ value_off right_off left_nb right_nb =>
    (left_nb : Int) * (k : Int) ≤ (nb : Int) * (k : Int) ∧
    0 ≤ value_off ∧ value_off + (k : Int) ≤ (nb : Int) * (k : Int) ∧
    0 ≤ right_off ∧ right_off + (right_nb : Int) * (k : Int) ≤ (nb : Int) * (k : Int)

/-- The builder `kdt_new_in` with a record of the index computations it makes:
the code of `kdt_new_in_fuel`, and next to the node and the memory the list of
the index computations of the call and of the calls below it.  The products
`median*t->k` and `(median+1)*t->k` are `int` products. -/
def kdt_new_in_traced (qsort_r : Sorter Tuple) (k : Nat) (order : List Nat) :
    Nat → Mem → Nat → Nat → Nat → Option (kd_node × Mem × List index_use)
  | 0, _, _, _, _ => none
  | fuel + 1, m, points, nb_points, depth =>
    if nb_points = 0 then some (kd_node.NULL, m, [])
    else if k = 0 then none
    else
      match order[depth % k]? with
      | none => none
      | some axis =>
        let m1 : Mem := { m with mallocs := m.mallocs + 1 }
        if nb_points ≤ 8 then
          some (kd_node.node points nb_points kd_node.NULL kd_node.NULL, m1,
                [index_use.lookup depth k (depth % k) axis])
        else if m1.buf.length < points + nb_points then none
        else
          let m2 : Mem :=
            { m1 with buf := sort_window qsort_r (fun a b => kdt_compar a b axis)
                               m1.buf points nb_points }
          let median := nb_points / 2
          match kdt_new_in_traced qsort_r k order fuel m2 points median (depth + 1) with
          | none => none
          | some (left, m3, uses_left) =>
            match kdt_new_in_traced qsort_r k order fuel m3 (points + (median + 1))
                (nb_points - median - 1) (depth + 1) with
            | none => none
            | some (right, m4, uses_right) =>
              some (kd_node.node (points + median) 1 left right, m4,
                    index_use.lookup depth k (depth % k) axis ::
                    index_use.split k nb_points median
                      (wrap32 ((median : Int) * (k : Int)))
                      (wrap32 (((median : Int) + 1) * (k : Int)))
                      median (nb_points - median - 1) ::
                    (uses_left ++ uses_right))

/-- The builder with its record of index computations, with the fuel of
`kdt_new_in`. -/
def kdt_new_in_log (qsort_r : Sorter Tuple) (k : Nat) (order : List Nat)
    (m : Mem) (points nb_points depth : Nat) :
    Option (kd_node × Mem × List index_use) :=
  kdt_new_in_traced qsort_r k order (nb_points + 1) m points nb_points depth

/-- A buffer of `2^30` four-dimensional tuples: `2^32` values of type `int`. -/
def huge_buffer : List Tuple := List.replicate 1073741824 [0, 0, 0, 0]

/-! ## Lists and windows -/

theorem sort_window_append (qsort_r : Sorter Tuple) (cmp : Tuple → Tuple → Int)
    (pre w post : List Tuple) (p n : Nat) (hp : pre.length = p) (hn : w.length = n) :
    sort_window qsort_r cmp (pre ++ w ++ post) p n = pre ++ qsort_r cmp w ++ post := by
  subst hp; subst hn
  simp [sort_window, window, List.append_assoc]

theorem split_at_median (s : List Tuple) (i : Nat) :
    s = s.take i ++ ((s.drop i).take 1 ++ s.drop (i + 1)) := by
  have h : s.drop (i + 1) = (s.drop i).drop 1 := by
    rw [List.drop_drop]
  rw [h, List.take_append_drop, List.take_append_drop]

theorem window_add (buf : List Tuple) (p a b : Nat) :
    window buf p a ++ window buf (p + a) b = window buf p (a + b) := by
  unfold window
  rw [List.take_add, List.drop_drop]

theorem window_length (buf : List Tuple) (p n : Nat) (h : p + n ≤ buf.length) :
    (window buf p n).length = n := by
  unfold window
  rw [List.length_take, List.length_drop]
  omega

/-! ## Properties of a derivation -/

theorem Built.perm {qsort_r : Sorter Tuple} {k : Nat} {order : List Nat}
    (hq : SortPermutes qsort_r) {depth points : Nat} {w w1 : List Tuple} {nd : kd_node}
    (h : Built qsort_r k order depth points w w1 nd) : w1.Perm w := by
  induction h with
  | null => exact List.Perm.refl _
  | leaf => exact List.Perm.refl _
  | split depth points w s l1 r1 axis left right h8 ha hs hl hr ihl ihr =>
    have hsw : s.Perm w := by rw [hs]; exact hq _ w
    have h1 : (l1 ++ (s.drop (w.length / 2)).take 1 ++ r1).Perm
        (s.take (w.length / 2) ++ (s.drop (w.length / 2)).take 1
          ++ s.drop (w.length / 2 + 1)) :=
      (ihl.append_right _).append ihr
    have h2 : s.take (w.length / 2) ++ (s.drop (w.length / 2)).take 1
          ++ s.drop (w.length / 2 + 1) = s := by
      rw [List.append_assoc]; exact (split_at_median s (w.length / 2)).symm
    rw [h2] at h1
    exact h1.trans hsw

theorem Built.length_eq {qsort_r : Sorter Tuple} {k : Nat} {order : List Nat}
    (hq : SortPermutes qsort_r) {depth points : Nat} {w w1 : List Tuple} {nd : kd_node}
    (h : Built qsort_r k order depth points w w1 nd) : w1.length = w.length :=
  (h.perm hq).length_eq

theorem Built.ne_null {qsort_r : Sorter Tuple} {k : Nat} {order : List Nat}
    {depth points : Nat} {w w1 : List Tuple} {nd : kd_node}
    (h : Built qsort_r k order depth points w w1 nd) (hw : w.length ≠ 0) :
    nd ≠ kd_node.NULL := by
  cases h with
  | null => simp at hw
  | leaf => simp
  | split => simp

/-- In a derivation with a window of more than eight tuples, the sorted window
splits into a left part of `n/2` tuples and a right part of `n - n/2 - 1`. -/
theorem split_lengths {qsort_r : Sorter Tuple} (hq : SortPermutes qsort_r)
    (cmp : Tuple → Tuple → Int) (w : List Tuple) :
    ((qsort_r cmp w).take (w.length / 2)).length = w.length / 2 ∧
    ((qsort_r cmp w).drop (w.length / 2 + 1)).length = w.length - w.length / 2 - 1 := by
  have hl : (qsort_r cmp w).length = w.length := (hq cmp w).length_eq
  rw [List.length_take, List.length_drop, hl]
  omega

theorem Built.tuples_eq {qsort_r : Sorter Tuple} {k : Nat} {order : List Nat}
    (hq : SortPermutes qsort_r) {depth points : Nat} {w w1 : List Tuple} {nd : kd_node}
    (h : Built qsort_r k order depth points w w1 nd) (buf : List Tuple) :
    nd.tuples buf = window buf points w.length := by
  induction h with
  | null => simp [kd_node.tuples, window]
  | leaf => simp [kd_node.tuples]
  | split depth points w s l1 r1 axis left right h8 ha hs hl hr ihl ihr =>
    obtain ⟨hlen1, hlen2⟩ := split_lengths hq (fun a b => kdt_compar a b axis) w
    rw [← hs] at hlen1 hlen2
    have hne : left ≠ kd_node.NULL := hl.ne_null (by rw [hlen1]; omega)
    rw [kd_node.tuples, if_neg (fun hc => hne hc.1), ihl, ihr, hlen1, hlen2,
      window_add, window_add]
    congr 1
    omega

theorem Built.count_eq {qsort_r : Sorter Tuple} {k : Nat} {order : List Nat}
    (hq : SortPermutes qsort_r) {depth points : Nat} {w w1 : List Tuple} {nd : kd_node}
    (h : Built qsort_r k order depth points w w1 nd) : nd.count = w.length := by
  induction h with
  | null => simp [kd_node.count]
  | leaf => simp [kd_node.count]
  | split depth points w s l1 r1 axis left right h8 ha hs hl hr ihl ihr =>
    obtain ⟨hlen1, hlen2⟩ := split_lengths hq (fun a b => kdt_compar a b axis) w
    rw [← hs] at hlen1 hlen2
    have hne : left ≠ kd_node.NULL := hl.ne_null (by rw [hlen1]; omega)
    rw [kd_node.count, if_neg (fun hc => hne hc.1), ihl, ihr, hlen1, hlen2]
    omega

/-! ## The builder follows its derivation -/

theorem order_lookup (k : Nat) (order : List Nat) (hk : 0 < k) (ho : k ≤ order.length)
    (depth : Nat) : ∃ axis, order[depth % k]? = some axis := by
  have hlt : depth % k < order.length := lt_of_lt_of_le (Nat.mod_lt _ hk) ho
  exact ⟨order[depth % k], List.getElem?_eq_getElem hlt⟩

theorem kdt_new_in_fuel_built (qsort_r : Sorter Tuple) (k : Nat) (order : List Nat)
    (hq : SortPermutes qsort_r) (hk : 0 < k) (ho : k ≤ order.length) :
    ∀ (fuel : Nat) (m : Mem) (points nb_points depth : Nat) (pre w post : List Tuple),
      m.buf = pre ++ w ++ post → pre.length = points → w.length = nb_points →
      nb_points < fuel →
      ∃ nd w1, kdt_new_in_fuel qsort_r k order fuel m points nb_points depth
          = some (nd, { m with buf := pre ++ w1 ++ post, mallocs := m.mallocs + nd.size }) ∧
        Built qsort_r k order depth points w w1 nd := by
  intro fuel
  induction fuel with
  | zero => intro m points n depth pre w post _ _ _ hf; omega
  | succ fuel ih =>
    intro m points n depth pre w post hb hp hw hf
    rw [kdt_new_in_fuel]
    by_cases h0 : n = 0
    · have hnil : w = [] := List.length_eq_zero.mp (hw.trans h0)
      subst hnil
      refine ⟨kd_node.NULL, [], ?_, Built.null depth points⟩
      cases m
      simp only [List.append_nil] at hb
      simp [h0, kd_node.size, hb]
    · obtain ⟨axis, ha⟩ := order_lookup k order hk ho depth
      have hk0 : k ≠ 0 := Nat.pos_iff_ne_zero.mp hk
      simp only [h0, hk0, if_false, ha]
      by_cases h8 : n ≤ 8
      · refine ⟨kd_node.node points n kd_node.NULL kd_node.NULL, w, ?_, ?_⟩
        · simp [h8, kd_node.size, hb]
        · subst hw
          exact Built.leaf depth points w axis h0 h8 ha
      · have hlen : ¬ (m.buf.length < points + n) := by
          rw [hb]; simp only [List.length_append]; omega
        simp only [h8, if_false, hlen]
        have hsort := sort_window_append qsort_r (fun a b => kdt_compar a b axis)
          pre w post points n hp hw
        rw [hb, hsort]
        set s := qsort_r (fun a b => kdt_compar a b axis) w with hs
        have hsl : s.length = n := by rw [← hw]; exact (hq _ w).length_eq
        have hn8 : 8 < n := Nat.lt_of_not_le h8
        -- the left window
        have hsplit := split_at_median s (n / 2)
        obtain ⟨left, l1, hle, hlb⟩ := ih
          { buf := pre ++ s ++ post, mallocs := m.mallocs + 1, frees := m.frees }
          points (n / 2) (depth + 1) pre (s.take (n / 2))
          ((s.drop (n / 2)).take 1 ++ s.drop (n / 2 + 1) ++ post)
          (by simp only [List.append_assoc]
              conv_lhs => rw [hsplit]
              simp only [List.append_assoc])
          hp (by rw [List.length_take]; omega) (by omega)
        rw [hle]
        -- the right window
        obtain ⟨right, r1, hre, hrb⟩ := ih
          { buf := pre ++ l1 ++ ((s.drop (n / 2)).take 1 ++ s.drop (n / 2 + 1) ++ post),
            mallocs := m.mallocs + 1 + left.size, frees := m.frees }
          (points + (n / 2 + 1)) (n - n / 2 - 1) (depth + 1)
          (pre ++ l1 ++ (s.drop (n / 2)).take 1) (s.drop (n / 2 + 1)) post
          (by simp only [List.append_assoc])
          (by
            have h1 : l1.length = n / 2 := by
              rw [hlb.length_eq hq, List.length_take]; omega
            simp only [List.length_append, List.length_take, List.length_drop]
            omega)
          (by rw [List.length_drop]; omega) (by omega)
        simp only [] at hre ⊢
        rw [hre]
        refine ⟨kd_node.node (points + n / 2) 1 left right,
          l1 ++ (s.drop (n / 2)).take 1 ++ r1, ?_, ?_⟩
        · simp [kd_node.size, List.append_assoc, Nat.add_assoc]
        · subst hw
          exact Built.split depth points w s l1 r1 axis left right hn8 ha hs hlb hrb

theorem buf_split (buf : List Tuple) (points n : Nat) :
    buf = buf.take points ++ window buf points n ++ buf.drop (points + n) := by
  unfold window
  rw [List.append_assoc, ← List.drop_drop, List.take_append_drop, List.take_append_drop]

/-- A call of `kdt_new_in` on a window inside the buffer returns a node, changes
nothing outside the window, and follows a derivation on the window. -/
theorem kdt_new_in_built (qsort_r : Sorter Tuple) (k : Nat) (order : List Nat)
    (hq : SortPermutes qsort_r) (hk : 0 < k) (ho : k ≤ order.length)
    (m : Mem) (points n depth : Nat) (hin : points + n ≤ m.buf.length) :
    ∃ nd w1, kdt_new_in qsort_r k order m points n depth
        = some (nd, { m with buf := m.buf.take points ++ w1 ++ m.buf.drop (points + n),
                             mallocs := m.mallocs + nd.size }) ∧
      Built qsort_r k order depth points (window m.buf points n) w1 nd := by
  unfold kdt_new_in
  apply kdt_new_in_fuel_built qsort_r k order hq hk ho (n + 1) m points n depth
  · exact buf_split m.buf points n
  · rw [List.length_take]; omega
  · exact window_length m.buf points n hin
  · omega

theorem window_all (buf : List Tuple) : window buf 0 buf.length = buf := by
  simp [window]

theorem insertion_qsort_permutes {α : Type} : SortPermutes (insertion_qsort : Sorter α) := by
  intro cmp l
  exact List.perm_insertionSort _ l

theorem perm_range_length {k : Nat} {order : List Nat} (ho : order.Perm (List.range k)) :
    k ≤ order.length := by
  rw [ho.length_eq, List.length_range]

/-- The whole-buffer form of `kdt_new_in_built` for the entry point. -/
theorem kdt_new_built (qsort_r : Sorter Tuple) (k : Nat) (order : List Nat)
    (hq : SortPermutes qsort_r) (hk : 0 < k) (ho : k ≤ order.length) (m : Mem) :
    ∃ nd w1, kdt_new qsort_r m 0 m.buf.length k order
        = some ({ k := k, root := nd },
                { m with buf := w1, mallocs := m.mallocs + nd.size }) ∧
      Built qsort_r k order k 0 m.buf w1 nd := by
  obtain ⟨nd, w1, he, hb⟩ :=
    kdt_new_in_built qsort_r k order hq hk ho m 0 m.buf.length k (by omega)
  refine ⟨nd, w1, ?_, ?_⟩
  · unfold kdt_new
    rw [he]
    simp
  · rw [window_all] at hb
    exact hb

theorem Built.leaf_inv {qsort_r : Sorter Tuple} {k : Nat} {order : List Nat}
    {depth points : Nat} {w w1 : List Tuple} {nd : kd_node}
    (h : Built qsort_r k order depth points w w1 nd) (h0 : w.length ≠ 0) (h8 : w.length ≤ 8) :
    nd = kd_node.node points w.length kd_node.NULL kd_node.NULL ∧ w1 = w := by
  cases h with
  | null => simp at h0
  | leaf => exact ⟨rfl, rfl⟩
  | split _ _ _ _ _ _ _ _ _ h9 => omega

theorem Built.split_inv {qsort_r : Sorter Tuple} {k : Nat} {order : List Nat}
    {depth points : Nat} {w w1 : List Tuple} {nd : kd_node}
    (h : Built qsort_r k order depth points w w1 nd) (h8 : 8 < w.length) :
    ∃ axis s l1 r1 left right,
      order[depth % k]? = some axis ∧
      s = qsort_r (fun a b => kdt_compar a b axis) w ∧
      Built qsort_r k order (depth + 1) points (s.take (w.length / 2)) l1 left ∧
      Built qsort_r k order (depth + 1) (points + (w.length / 2 + 1))
        (s.drop (w.length / 2 + 1)) r1 right ∧
      w1 = l1 ++ (s.drop (w.length / 2)).take 1 ++ r1 ∧
      nd = kd_node.node (points + w.length / 2) 1 left right := by
  cases h with
  | null => simp at h8
  | leaf _ _ _ _ _ h9 => omega
  | split _ _ _ s l1 r1 axis left right _ ha hs hl hr =>
    exact ⟨axis, s, l1, r1, left, right, ha, hs, hl, hr, rfl, rfl⟩

theorem Built.is_leaf_iff {qsort_r : Sorter Tuple} {k : Nat} {order : List Nat}
    (hq : SortPermutes qsort_r) {depth points : Nat} {w w1 : List Tuple} {nd : kd_node}
    (h : Built qsort_r k order depth points w w1 nd) :
    nd.is_leaf = true ↔ 1 ≤ w.length ∧ w.length ≤ 8 := by
  cases h with
  | null => simp [kd_node.is_leaf]
  | leaf _ _ _ _ h0 h8 => simp [kd_node.is_leaf]; omega
  | split _ _ _ s l1 r1 axis left right h8 ha hs hl hr =>
    obtain ⟨hlen1, _⟩ := split_lengths hq (fun a b => kdt_compar a b axis) w
    rw [← hs] at hlen1
    have hne : left ≠ kd_node.NULL := hl.ne_null (by rw [hlen1]; omega)
    simp [kd_node.is_leaf, hne]
    omega

theorem Built.leaf_sizes_bound {qsort_r : Sorter Tuple} {k : Nat} {order : List Nat}
    (hq : SortPermutes qsort_r) {depth points : Nat} {w w1 : List Tuple} {nd : kd_node}
    (h : Built qsort_r k order depth points w w1 nd) :
    ∀ nb ∈ nd.leaf_sizes, 1 ≤ nb ∧ nb ≤ 8 := by
  induction h with
  | null => simp [kd_node.leaf_sizes]
  | leaf _ _ _ _ h0 h8 => simp [kd_node.leaf_sizes]; omega
  | split depth points w s l1 r1 axis left right h8 ha hs hl hr ihl ihr =>
    obtain ⟨hlen1, _⟩ := split_lengths hq (fun a b => kdt_compar a b axis) w
    rw [← hs] at hlen1
    have hne : left ≠ kd_node.NULL := hl.ne_null (by rw [hlen1]; omega)
    intro nb hnb
    rw [kd_node.leaf_sizes, if_neg (fun hc => hne hc.1), List.mem_append] at hnb
    rcases hnb with h1 | h1
    · exact ihl nb h1
    · exact ihr nb h1

theorem Built.all_leaf_iff {qsort_r : Sorter Tuple} {k : Nat} {order : List Nat}
    (hq : SortPermutes qsort_r) {depth points : Nat} {w w1 : List Tuple} {nd : kd_node}
    (h : Built qsort_r k order depth points w w1 nd) :
    nd.all_nodes (fun x => x.is_leaf = true ↔ 1 ≤ x.count ∧ x.count ≤ 8) := by
  induction h with
  | null => simp [kd_node.all_nodes]
  | leaf depth points w axis h0 h8 ha =>
    have hb : Built qsort_r k order depth points w w
        (kd_node.node points w.length kd_node.NULL kd_node.NULL) :=
      Built.leaf depth points w axis h0 h8 ha
    refine ⟨?_, trivial, trivial⟩
    show _ ↔ _
    rw [hb.is_leaf_iff hq, hb.count_eq hq]
  | split depth points w s l1 r1 axis left right h8 ha hs hl hr ihl ihr =>
    have hb := Built.split depth points w s l1 r1 axis left right h8 ha hs hl hr
    refine ⟨?_, ihl, ihr⟩
    show _ ↔ _
    rw [hb.is_leaf_iff hq, hb.count_eq hq]

theorem sort_window_length (qsort_r : Sorter Tuple) (hq : SortPermutes qsort_r)
    (cmp : Tuple → Tuple → Int) (buf : List Tuple) (points n : Nat) :
    (sort_window qsort_r cmp buf points n).length = buf.length := by
  have h := congrArg List.length (buf_split buf points n)
  unfold sort_window
  simp only [List.length_append] at h ⊢
  rw [(hq cmp (window buf points n)).length_eq]
  exact h.symm

theorem kdt_new_in_fuel_depth_shift (qsort_r : Sorter Tuple) (k : Nat) (order : List Nat) :
    ∀ (fuel : Nat) (m : Mem) (points n depth : Nat),
      kdt_new_in_fuel qsort_r k order fuel m points n (depth + k)
        = kdt_new_in_fuel qsort_r k order fuel m points n depth := by
  intro fuel
  induction fuel with
  | zero => intro m points n depth; rfl
  | succ fuel ih =>
    intro m points n depth
    rw [kdt_new_in_fuel, kdt_new_in_fuel]
    have h1 : (depth + k) % k = depth % k := Nat.add_mod_right depth k
    have h2 : depth + k + 1 = depth + 1 + k := by omega
    simp only [h1, h2, ih]

/-! ## The library sort on consistent comparisons -/

theorem wrap32_small (x : Int) (h1 : -2147483648 ≤ x) (h2 : x ≤ 2147483647) :
    wrap32 x = x := by
  unfold wrap32
  omega

theorem Consistent.total {α : Type} {cmp : α → α → Int} {l : List α}
    (h : Consistent cmp l) {a b : α} (ha : a ∈ l) (hb : b ∈ l) :
    cmp a b ≤ 0 ∨ cmp b a ≤ 0 := by
  by_cases hab : cmp a b ≤ 0
  · exact Or.inl hab
  · right
    have h1 : 0 < cmp a b := by omega
    have h2 := (h.1 b hb a ha).mpr h1
    omega

theorem Consistent.restrict {α : Type} {cmp : α → α → Int} {l l1 : List α}
    (h : Consistent cmp l) (hsub : ∀ x ∈ l1, x ∈ l) : Consistent cmp l1 :=
  ⟨fun a ha b hb => h.1 a (hsub a ha) b (hsub b hb),
   fun a ha b hb c hc => h.2 a (hsub a ha) b (hsub b hb) c (hsub c hc)⟩

theorem orderedInsert_pairwise {α : Type} (cmp : α → α → Int) (a : α) :
    ∀ l : List α, Consistent cmp (a :: l) →
      l.Pairwise (fun x y => cmp x y ≤ 0) →
      (l.orderedInsert (fun x y => cmp x y ≤ 0) a).Pairwise (fun x y => cmp x y ≤ 0) := by
  intro l
  induction l with
  | nil => intro _ _; simp
  | cons b l ih =>
    intro hc hp
    rw [List.orderedInsert]
    have hpb := List.pairwise_cons.mp hp
    by_cases hab : cmp a b ≤ 0
    · rw [if_pos hab]
      refine List.pairwise_cons.mpr ⟨?_, hp⟩
      intro c hcm
      rcases List.mem_cons.mp hcm with rfl | hcl
      · exact hab
      · exact hc.2 a (by simp) b (by simp) c (by simp [hcl]) hab (hpb.1 c hcl)
    · rw [if_neg hab]
      have hba : cmp b a ≤ 0 := by
        rcases hc.total (List.mem_cons_self a _) (List.mem_cons_of_mem a (List.mem_cons_self b l))
          with h1 | h1
        · exact absurd h1 hab
        · exact h1
      refine List.pairwise_cons.mpr ⟨?_, ?_⟩
      · intro c hcm
        rcases (List.mem_orderedInsert _).mp hcm with rfl | hcl
        · exact hba
        · exact hpb.1 c hcl
      · apply ih _ hpb.2
        apply hc.restrict
        intro x hx
        rcases List.mem_cons.mp hx with rfl | hxl
        · simp
        · simp [hxl]

theorem insertion_qsort_sorts {α : Type} : SortSorts (insertion_qsort : Sorter α) := by
  intro cmp l
  induction l with
  | nil => intro _; simp [insertion_qsort]
  | cons a l ih =>
    intro hc
    have hl : Consistent cmp l := hc.restrict (fun x hx => List.mem_cons_of_mem a hx)
    have hp := ih hl
    unfold insertion_qsort at hp ⊢
    rw [List.insertionSort]
    apply orderedInsert_pairwise cmp a _ _ hp
    apply hc.restrict
    intro x hx
    rcases List.mem_cons.mp hx with rfl | hxl
    · simp
    · exact List.mem_cons_of_mem _
        ((List.perm_insertionSort (fun x y => cmp x y ≤ 0) l).mem_iff.mp hxl)

theorem NoOverflow.sublist_ok {l l1 : List Tuple} (h : NoOverflow l)
    (hsub : ∀ x ∈ l1, x ∈ l) : NoOverflow l1 :=
  fun a ha b hb j => h a (hsub a ha) b (hsub b hb) j

theorem kdt_compar_small {l : List Tuple} (h : NoOverflow l) {a b : Tuple}
    (ha : a ∈ l) (hb : b ∈ l) (off : Nat) :
    kdt_compar a b off = comp a off - comp b off := by
  unfold kdt_compar
  exact wrap32_small _ (h a ha b hb off).1 (h a ha b hb off).2

theorem kdt_compar_consistent {l : List Tuple} (h : NoOverflow l) (off : Nat) :
    Consistent (fun a b => kdt_compar a b off) l := by
  constructor
  · intro a ha b hb
    simp only [kdt_compar_small h ha hb, kdt_compar_small h hb ha]
    omega
  · intro a ha b hb c hc
    simp only [kdt_compar_small h ha hb, kdt_compar_small h hb hc, kdt_compar_small h ha hc]
    omega

/-! ## Split ordering when no comparison overflows -/

theorem window_sub (buf : List Tuple) (p n a b : Nat) (h : a + b ≤ n) :
    window buf (p + a) b = ((window buf p n).drop a).take b := by
  unfold window
  rw [List.drop_take, List.take_take, List.drop_drop]
  congr 1
  omega

theorem window_one (buf : List Tuple) (i : Nat) (x : Tuple) (h : window buf i 1 = [x]) :
    buf.getD i [] = x := by
  unfold window at h
  have h2 : (buf.drop i).head? = some x := by
    cases hd : buf.drop i with
    | nil => rw [hd] at h; simp at h
    | cons y ys => rw [hd] at h; simp at h; simp [h]
  rw [List.head?_drop] at h2
  simp [h2]

/-- The three parts of a window whose contents are `l1 ++ [x] ++ r1`. -/
theorem window_parts (buf : List Tuple) (p n : Nat) (l1 r1 : List Tuple) (x : Tuple)
    (h : window buf p n = l1 ++ [x] ++ r1) (hn : l1.length + 1 + r1.length = n) :
    window buf p l1.length = l1 ∧ buf.getD (p + l1.length) [] = x ∧
    window buf (p + (l1.length + 1)) r1.length = r1 := by
  refine ⟨?_, ?_, ?_⟩
  · have h1 := window_sub buf p n 0 l1.length (by omega)
    rw [Nat.add_zero, h] at h1
    rw [h1, List.drop_zero, List.append_assoc, List.take_left' rfl]
  · apply window_one
    have h1 := window_sub buf p n l1.length 1 (by omega)
    rw [h] at h1
    rw [h1, List.append_assoc, List.drop_left' rfl]
    rfl
  · have h1 := window_sub buf p n (l1.length + 1) r1.length (by omega)
    rw [h] at h1
    rw [h1, List.drop_left' (by simp), List.take_length]

/-- The sorted window around its median: the tuples before position `i` compare
at most the tuple at `i`, the tuples after it at least. -/
theorem sorted_around {cmp : Tuple → Tuple → Int} {s : List Tuple} {i : Nat}
    (hp : s.Pairwise (fun a b => cmp a b ≤ 0)) (hi : i < s.length) :
    ∃ x, (s.drop i).take 1 = [x] ∧ x ∈ s ∧
      (∀ t ∈ s.take i, cmp t x ≤ 0) ∧ (∀ t ∈ s.drop (i + 1), cmp x t ≤ 0) := by
  have hx : (s.drop i).take 1 = [s.get ⟨i, hi⟩] := List.take_one_drop_eq_of_lt_length hi
  have hsplit := split_at_median s i
  rw [hx] at hsplit
  rw [hsplit] at hp
  obtain ⟨_, h2, h3⟩ := List.pairwise_append.mp hp
  refine ⟨s.get ⟨i, hi⟩, hx, List.get_mem s i hi, ?_, ?_⟩
  · intro t ht
    exact h3 t ht _ (List.mem_append_left _ (List.mem_singleton_self _))
  · intro t ht
    exact (List.pairwise_cons.mp h2).1 t ht

theorem Built.split_ordered_of {qsort_r : Sorter Tuple} {k : Nat} {order : List Nat}
    (hq : SortPermutes qsort_r) (hs : SortSorts qsort_r)
    {depth points : Nat} {w w1 : List Tuple} {nd : kd_node}
    (h : Built qsort_r k order depth points w w1 nd) :
    NoOverflow w → ∀ buf : List Tuple, window buf points w.length = w1 →
      nd.split_ordered buf k order depth = true := by
  induction h with
  | null => intro _ buf _; rfl
  | leaf => intro _ buf _; simp [kd_node.split_ordered]
  | split depth points w s l1 r1 axis left right h8 ha hs1 hl hr ihl ihr =>
    intro hno buf hwin
    obtain ⟨hlen1, hlen2⟩ := split_lengths hq (fun a b => kdt_compar a b axis) w
    rw [← hs1] at hlen1 hlen2
    have hsw : s.Perm w := by rw [hs1]; exact hq _ w
    have hl1 : l1.length = w.length / 2 := by rw [hl.length_eq hq, hlen1]
    have hr1 : r1.length = w.length - w.length / 2 - 1 := by rw [hr.length_eq hq, hlen2]
    have hsorted : s.Pairwise (fun a b => kdt_compar a b axis ≤ 0) := by
      rw [hs1]; exact hs _ w (kdt_compar_consistent hno axis)
    obtain ⟨x, hx, hxs, hbefore, hafter⟩ :=
      sorted_around hsorted (show w.length / 2 < s.length by rw [hsw.length_eq]; omega)
    rw [hx] at hwin
    obtain ⟨hw1, hw2, hw3⟩ := window_parts buf points w.length l1 r1 x hwin
      (by rw [hl1, hr1]; omega)
    rw [hl1] at hw1 hw2 hw3
    rw [hr1] at hw3
    have hne : left ≠ kd_node.NULL := hl.ne_null (by rw [hlen1]; omega)
    have htl : left.tuples buf = l1 := by rw [hl.tuples_eq hq, hlen1, hw1]
    have htr : right.tuples buf = r1 := by rw [hr.tuples_eq hq, hlen2, hw3]
    have hax : order.getD (depth % k) 0 = axis := by simp [ha]
    have hxw : x ∈ w := hsw.mem_iff.mp hxs
    have hnol : NoOverflow (s.take (w.length / 2)) :=
      hno.sublist_ok (fun t ht => hsw.mem_iff.mp (List.mem_of_mem_take ht))
    have hnor : NoOverflow (s.drop (w.length / 2 + 1)) :=
      hno.sublist_ok (fun t ht => hsw.mem_iff.mp (List.mem_of_mem_drop ht))
    rw [kd_node.split_ordered, if_neg (fun hc => hne hc.1), htl, htr, hax, hw2]
    simp only [Bool.and_eq_true, List.all_eq_true, decide_eq_true_eq]
    refine ⟨⟨⟨?_, ?_⟩, ?_⟩, ?_⟩
    · intro t ht
      have hts : t ∈ s.take (w.length / 2) := (hl.perm hq).mem_iff.mp ht
      have hc := hbefore t hts
      rw [kdt_compar_small hno (hsw.mem_iff.mp (List.mem_of_mem_take hts)) hxw] at hc
      omega
    · intro t ht
      have hts : t ∈ s.drop (w.length / 2 + 1) := (hr.perm hq).mem_iff.mp ht
      have hc := hafter t hts
      rw [kdt_compar_small hno hxw (hsw.mem_iff.mp (List.mem_of_mem_drop hts))] at hc
      omega
    · exact ihl hnol buf (by rw [hlen1]; exact hw1)
    · exact ihr hnor buf (by rw [hlen2]; exact hw3)

/-- Split ordering where no comparison overflows. For a library sort that
rearranges its window and sorts it when the comparison is consistent, `k ≥ 1`,
an axis order that is a permutation of `0..k-1` and a buffer in which the
difference of two tuples fits an `int` on every component, the tree `kdt_new`
builds has the split ordering in the final buffer. -/
theorem split_ordering_no_overflow (qsort_r : Sorter Tuple) (hq : SortPermutes qsort_r)
    (hs : SortSorts qsort_r) (m : Mem) (k : Nat) (order : List Nat) (hk : 1 ≤ k)
    (ho : order.Perm (List.range k)) (hno : NoOverflow m.buf) :
    ∃ t m1, kdt_new qsort_r m 0 m.buf.length k order = some (t, m1) ∧
      t.root.split_ordered m1.buf k order 0 = true := by
  obtain ⟨nd, w1, he, hb⟩ :=
    kdt_new_in_built qsort_r k order hq hk (perm_range_length ho) m 0 m.buf.length 0
      (by omega)
  rw [window_all] at hb
  have hwin : window (m.buf.take 0 ++ w1 ++ m.buf.drop (0 + m.buf.length)) 0 m.buf.length
      = w1 := by
    simp [window, ← hb.length_eq hq]
  refine ⟨{ k := k, root := nd },
    { m with buf := m.buf.take 0 ++ w1 ++ m.buf.drop (0 + m.buf.length),
             mallocs := m.mallocs + nd.size },
    ?_, hb.split_ordered_of hq hs hno _ hwin⟩
  have h7 : kdt_new qsort_r m 0 m.buf.length k order
      = (kdt_new_in qsort_r k order m 0 m.buf.length 0).map
          (fun r => ({ k := k, root := r.1 }, r.2)) := by
    have h := kdt_new_in_fuel_depth_shift qsort_r k order (m.buf.length + 1) m 0
      m.buf.length 0
    rw [Nat.zero_add] at h
    unfold kdt_new kdt_new_in
    rw [h]
    cases kdt_new_in_fuel qsort_r k order (m.buf.length + 1) m 0 m.buf.length 0 with
    | none => rfl
    | some r => rfl
  rw [h7, he]
  rfl

/-! ## The statistics of `calc_dimstats` -/

theorem dimstats_update_idx (ds : dimstats) (v : Int) : (ds.update v).idx = ds.idx := by
  simp only [dimstats.update]
  split_ifs <;> rfl

theorem dimstats_scan_idx (d : List dimstats) (tup : Tuple) :
    (dimstats_scan d tup).map (fun ds => ds.idx) = d.map (fun ds => ds.idx) := by
  apply List.ext_getElem
  · simp [dimstats_scan]
  · intro i h1 h2
    simp [dimstats_scan, dimstats_update_idx]

theorem dimstats_fold_idx (l : List Tuple) :
    ∀ d : List dimstats,
      (l.foldl dimstats_scan d).map (fun ds => ds.idx) = d.map (fun ds => ds.idx) := by
  induction l with
  | nil => intro d; rfl
  | cons tup l ih =>
    intro d
    rw [List.foldl_cons, ih, dimstats_scan_idx]

theorem dimstats_init_idx (dim : Nat) :
    (dimstats_init dim).map (fun ds => ds.idx) = List.range dim := by
  simp [dimstats_init, List.map_map, Function.comp_def]

theorem dimstats_diff_idx (d : List dimstats) :
    (dimstats_diff d).map (fun ds => ds.idx) = d.map (fun ds => ds.idx) := by
  simp [dimstats_diff, List.map_map, Function.comp_def]

theorem dimstats_scan_eq_map (d : List dimstats) (tup : Tuple)
    (hd : d.map (fun ds => ds.idx) = List.range d.length) :
    dimstats_scan d tup = d.map (fun ds => ds.update (comp tup ds.idx)) := by
  unfold dimstats_scan
  rw [← hd, List.zipWith_map_right, List.zipWith_same]

theorem dimstats_scan_length (d : List dimstats) (tup : Tuple) :
    (dimstats_scan d tup).length = d.length := by
  simp [dimstats_scan]

theorem dimstats_column_idx (l : List Tuple) (j : Nat) :
    ∀ ds : dimstats, (dimstats_column l j ds).idx = ds.idx := by
  induction l with
  | nil => intro ds; rfl
  | cons t l ih =>
    intro ds
    unfold dimstats_column at ih ⊢
    rw [List.foldl_cons, ih, dimstats_update_idx]

/-- The scan of all tuples, record by record. -/
theorem dimstats_fold_eq_map (l : List Tuple) :
    ∀ d : List dimstats, d.map (fun ds => ds.idx) = List.range d.length →
      l.foldl dimstats_scan d = d.map (fun ds => dimstats_column l ds.idx ds) := by
  induction l with
  | nil => intro d _; simp [dimstats_column]
  | cons t l ih =>
    intro d hd
    have hd1 : (dimstats_scan d t).map (fun ds => ds.idx)
        = List.range (dimstats_scan d t).length := by
      rw [dimstats_scan_idx, dimstats_scan_length, hd]
    rw [List.foldl_cons, ih _ hd1, dimstats_scan_eq_map d t hd, List.map_map]
    apply List.map_congr_left
    intro ds _
    simp [dimstats_column, dimstats_update_idx]

theorem dimstats_column_min_max (l : List Tuple) (j : Nat) :
    ∀ ds : dimstats,
      (dimstats_column l j ds).min = (l.map (fun t => comp t j)).foldl min ds.min ∧
      (dimstats_column l j ds).max = (l.map (fun t => comp t j)).foldl max ds.max := by
  induction l with
  | nil => intro ds; exact ⟨rfl, rfl⟩
  | cons t l ih =>
    intro ds
    have h := ih (ds.update (comp t j))
    unfold dimstats_column at h ⊢
    rw [List.foldl_cons, h.1, h.2, List.map_cons, List.foldl_cons, List.foldl_cons]
    have hmin : (ds.update (comp t j)).min = min ds.min (comp t j) := by
      simp only [dimstats.update]
      split_ifs <;> (try dsimp only) <;> omega
    have hmax : (ds.update (comp t j)).max = max ds.max (comp t j) := by
      simp only [dimstats.update]
      split_ifs <;> (try dsimp only at *) <;> omega
    rw [hmin, hmax]
    exact ⟨rfl, rfl⟩

theorem foldl_min_le (vs : List Int) : ∀ v : Int, vs.foldl min v ≤ v := by
  induction vs with
  | nil => intro v; exact le_refl v
  | cons x vs ih => intro v; rw [List.foldl_cons]; exact le_trans (ih _) (min_le_left v x)

theorem le_foldl_max (vs : List Int) : ∀ v : Int, v ≤ vs.foldl max v := by
  induction vs with
  | nil => intro v; exact le_refl v
  | cons x vs ih => intro v; rw [List.foldl_cons]; exact le_trans (le_max_left v x) (ih _)

theorem spec_spread_nonneg (buf : List Tuple) (j : Nat) : 0 ≤ spec_spread buf j := by
  unfold spec_spread
  split
  · exact le_refl 0
  · next v vs _ =>
    have h1 := foldl_min_le vs v
    have h2 := le_foldl_max vs v
    omega

/-- After the three loops of `calc_dimstats` on a buffer that is not empty, whose
components are `int` values and whose spreads fit an `int`, every record holds
the spread of its dimension. -/
theorem dimstats_diff_spec (buf : List Tuple) (dim : Nat) (hne : buf ≠ [])
    (hint : IntComponents buf dim) (hsp : ∀ j, j < dim → spec_spread buf j ≤ INT_MAX) :
    ∀ ds ∈ dimstats_diff (buf.foldl dimstats_scan (dimstats_init dim)),
      ds.diff = spec_spread buf ds.idx ∧ 0 ≤ ds.diff ∧ ds.diff ≤ INT_MAX := by
  have hinit : (dimstats_init dim).map (fun ds => ds.idx)
      = List.range (dimstats_init dim).length := by
    rw [dimstats_init_idx]; simp [dimstats_init]
  intro ds hds
  rw [dimstats_fold_eq_map buf _ hinit] at hds
  simp only [dimstats_diff, dimstats_init, List.map_map, List.mem_map, List.mem_range,
    Function.comp_apply] at hds
  obtain ⟨j, hj, rfl⟩ := hds
  obtain ⟨hmin, hmax⟩ := dimstats_column_min_max buf j
    { min := INT_MAX, max := INT_MIN, diff := INT_MAX, idx := j }
  have hidx := dimstats_column_idx buf j
    { min := INT_MAX, max := INT_MIN, diff := INT_MAX, idx := j }
  have hspread : (dimstats_column buf j
        { min := INT_MAX, max := INT_MIN, diff := INT_MAX, idx := j }).max
      - (dimstats_column buf j
        { min := INT_MAX, max := INT_MIN, diff := INT_MAX, idx := j }).min
      = spec_spread buf j := by
    rw [hmin, hmax]
    unfold spec_spread
    cases buf with
    | nil => exact absurd rfl hne
    | cons t l =>
      have hb := hint t (List.mem_cons_self t l) j hj
      simp only [List.map_cons, List.foldl_cons]
      rw [max_eq_right hb.1, min_eq_right hb.2]
  have hnn := spec_spread_nonneg buf j
  have hle := hsp j hj
  dsimp only at hidx ⊢
  rw [hidx, hspread, wrap32_small _ (by omega) (by unfold INT_MAX at hle; omega)]
  exact ⟨rfl, hnn, hle⟩

/-- Axis order where the spreads fit an `int`. For a library sort that rearranges
its input and sorts it when the comparison is consistent, a buffer of `N ≥ 1`
tuples of `int` components and `dim` dimensions whose spreads are at most
`INT_MAX`, the order array of `calc_dimstats` is in ascending order of spread. -/
theorem spread_order_no_overflow (qsort : Sorter dimstats) (hq : SortPermutes qsort)
    (hs : SortSorts qsort) (m : Mem) (dim : Nat) (hN : 1 ≤ m.buf.length)
    (hint : IntComponents m.buf dim)
    (hsp : ∀ j, j < dim → spec_spread m.buf j ≤ INT_MAX) :
    ∃ order m1, calc_dimstats qsort m m.buf.length dim = some (order, m1) ∧
      order.Pairwise (fun a b => spec_spread m.buf a ≤ spec_spread m.buf b) ∧
      (∀ i, i + 1 < dim →
        spec_spread m.buf (order.getD i 0) ≤ spec_spread m.buf (order.getD (i + 1) 0)) := by
  have hne : m.buf ≠ [] := by
    intro h; rw [h] at hN; simp at hN
  have hspec := dimstats_diff_spec m.buf dim hne hint hsp
  generalize hd2 : dimstats_diff (m.buf.foldl dimstats_scan (dimstats_init dim)) = d2
    at hspec
  have hcmp : ∀ a ∈ d2, ∀ b ∈ d2, dim_compar a b = a.diff - b.diff := by
    intro a ha b hb
    have h1 := hspec a ha
    have h2 := hspec b hb
    unfold dim_compar
    unfold INT_MAX at h1 h2
    exact wrap32_small _ (by omega) (by omega)
  have hcons : Consistent dim_compar d2 := by
    constructor
    · intro a ha b hb
      rw [hcmp a ha b hb, hcmp b hb a ha]
      omega
    · intro a ha b hb c hc
      rw [hcmp a ha b hb, hcmp b hb c hc, hcmp a ha c hc]
      omega
  have hperm := hq dim_compar d2
  have hsorted := hs dim_compar d2 hcons
  have hpw : (qsort dim_compar d2).Pairwise
      (fun a b => spec_spread m.buf a.idx ≤ spec_spread m.buf b.idx) := by
    apply List.Pairwise.imp_of_mem _ hsorted
    intro a b ha hb hab
    have ha2 := hperm.mem_iff.mp ha
    have hb2 := hperm.mem_iff.mp hb
    rw [hcmp a ha2 b hb2] at hab
    rw [← (hspec a ha2).1, ← (hspec b hb2).1]
    omega
  have hord : ((qsort dim_compar d2).map (fun ds => ds.idx)).Pairwise
      (fun a b => spec_spread m.buf a ≤ spec_spread m.buf b) :=
    List.pairwise_map.mpr hpw
  have hlen : ((qsort dim_compar d2).map (fun ds => ds.idx)).length = dim := by
    rw [List.length_map, hperm.length_eq, ← hd2]
    have h1 := congrArg List.length
      (dimstats_fold_idx m.buf (dimstats_init dim))
    simp only [List.length_map] at h1
    rw [dimstats_diff, List.length_map, h1]
    simp [dimstats_init]
  refine ⟨(qsort dim_compar d2).map (fun ds => ds.idx),
    { m with mallocs := m.mallocs + 2, frees := m.frees + 1 }, ?_, hord, ?_⟩
  · unfold calc_dimstats
    rw [if_neg (by omega), List.take_length]
    simp only [hd2]
  · intro i hi
    have h1 := List.pairwise_iff_getElem.mp hord i (i + 1) (by omega) (by omega) (by omega)
    simp only [List.getD_eq_getElem?_getD]
    rw [List.getElem?_eq_getElem (by omega), List.getElem?_eq_getElem (by omega)]
    exact h1

/-! ## Buffers of small values -/

theorem comp_bounded (t : Tuple) (j : Nat) (lo hi : Int) (hlo : lo ≤ 0) (hhi : 0 ≤ hi)
    (h : ∀ v ∈ t, lo ≤ v ∧ v ≤ hi) : lo ≤ comp t j ∧ comp t j ≤ hi := by
  unfold comp
  rw [List.getD_eq_getElem?_getD]
  cases hj : t[j]? with
  | none => exact ⟨hlo, hhi⟩
  | some v => exact h v (List.getElem?_mem hj)

/-- A buffer whose values all lie between `-2^30` and `2^30 - 1` has no
overflowing comparison. -/
theorem NoOverflow.of_small_values (buf : List Tuple)
    (h : ∀ t ∈ buf, ∀ v ∈ t, -1073741824 ≤ v ∧ v ≤ 1073741823) : NoOverflow buf := by
  intro a ha b hb j
  have h1 := comp_bounded a j _ _ (by decide) (by decide) (h a ha)
  have h2 := comp_bounded b j _ _ (by decide) (by decide) (h b hb)
  omega

/-- A buffer whose values are C `int` values has `int` components. -/
theorem IntComponents.of_int_values (buf : List Tuple) (dim : Nat)
    (h : ∀ t ∈ buf, ∀ v ∈ t, INT_MIN ≤ v ∧ v ≤ INT_MAX) : IntComponents buf dim := by
  intro t ht j _
  exact comp_bounded t j _ _ (by decide) (by decide) (h t ht)

/-- The split ordering of the tree built from `sample20` with the insertion sort. -/
theorem split_ordering_sample20 :
    ∃ t m1, kdt_new insertion_qsort ⟨sample20, 0, 0⟩ 0 20 2 [0, 1] = some (t, m1) ∧
      t.root.split_ordered m1.buf 2 [0, 1] 0 = true :=
  split_ordering_no_overflow insertion_qsort insertion_qsort_permutes insertion_qsort_sorts
    ⟨sample20, 0, 0⟩ 2 [0, 1] (by decide) (by decide)
    (NoOverflow.of_small_values sample20 (by decide))

/-- The order array of `sample10` with the insertion sort is in ascending order of
spread. -/
theorem spread_order_sample10 :
    ∃ order m1, calc_dimstats insertion_qsort ⟨sample10, 0, 0⟩ 10 2 = some (order, m1) ∧
      order.Pairwise (fun a b => spec_spread sample10 a ≤ spec_spread sample10 b) ∧
      (∀ i, i + 1 < 2 →
        spec_spread sample10 (order.getD i 0) ≤ spec_spread sample10 (order.getD (i + 1) 0)) :=
  spread_order_no_overflow insertion_qsort insertion_qsort_permutes insertion_qsort_sorts
    ⟨sample10, 0, 0⟩ 2 (by decide) (IntComponents.of_int_values sample10 2 (by decide))
    (by decide)

/-! ## The overflow of the comparison, for every library sort -/

theorem overflow9_consistent : Consistent (fun a b => kdt_compar a b 0) overflow9 := by
  constructor
  · decide
  · decide

theorem overflow9_inverted :
    ∀ a ∈ overflow9, ∀ b ∈ overflow9, kdt_compar a b 0 ≤ 0 → comp b 0 ≤ comp a 0 := by
  decide

/-- On `overflow9` the split ordering fails whatever the library sort is, as long
as it rearranges its window and sorts it when the comparison is consistent. -/
theorem split_ordering_overflow_any_sort (qsort_r : Sorter Tuple)
    (hq : SortPermutes qsort_r) (hs : SortSorts qsort_r) :
    ∃ t m1, kdt_new qsort_r ⟨overflow9, 0, 0⟩ 0 9 2 [0, 1] = some (t, m1) ∧
      t.root.split_ordered m1.buf 2 [0, 1] 0 = false := by
  obtain ⟨nd, w1, he, hb⟩ :=
    kdt_new_in_built qsort_r 2 [0, 1] hq (by decide) (by decide) ⟨overflow9, 0, 0⟩ 0 9 0
      (by decide)
  have hwo : window overflow9 0 9 = overflow9 := by decide
  simp only [hwo] at hb
  have hwin : window (List.take 0 overflow9 ++ w1 ++ List.drop (0 + 9) overflow9) 0 9
      = w1 := by
    have hl : w1.length = 9 := hb.length_eq hq
    simp [window, overflow9, ← hl]
  have h7 : kdt_new qsort_r ⟨overflow9, 0, 0⟩ 0 9 2 [0, 1]
      = (kdt_new_in qsort_r 2 [0, 1] ⟨overflow9, 0, 0⟩ 0 9 0).map
          (fun r => ({ k := 2, root := r.1 }, r.2)) := by
    have h := kdt_new_in_fuel_depth_shift qsort_r 2 [0, 1] (9 + 1) ⟨overflow9, 0, 0⟩ 0 9 0
    unfold kdt_new kdt_new_in
    rw [h]
    cases kdt_new_in_fuel qsort_r 2 [0, 1] (9 + 1) ⟨overflow9, 0, 0⟩ 0 9 0 with
    | none => rfl
    | some r => rfl
  refine ⟨{ k := 2, root := nd },
    { buf := List.take 0 overflow9 ++ w1 ++ List.drop (0 + 9) overflow9,
      mallocs := 0 + nd.size, frees := 0 }, ?_, ?_⟩
  · rw [h7, he]; rfl
  · obtain ⟨axis, s, l1, r1, left, right, ha, hs1, hl, hr, hw1, hnd⟩ :=
      hb.split_inv (by decide)
    have hax : axis = 0 := by
      have : ([0, 1] : List Nat)[0 % 2]? = some 0 := by decide
      rw [this] at ha
      exact (Option.some.inj ha).symm
    subst hax
    have hlen9 : overflow9.length = 9 := by decide
    rw [hlen9] at hl hr hw1 hnd
    have hsw : s.Perm overflow9 := by rw [hs1]; exact hq _ _
    have hsl : s.length = 9 := hsw.length_eq
    have hsorted : s.Pairwise (fun a b => kdt_compar a b 0 ≤ 0) := by
      rw [hs1]; exact hs _ _ overflow9_consistent
    obtain ⟨x, hx, hxs, hbefore, hafter⟩ :=
      sorted_around hsorted (show 9 / 2 < s.length by rw [hsl]; decide)
    have hlen1 : (s.take (9 / 2)).length = 4 := by rw [List.length_take, hsl]; decide
    have hlen2 : (s.drop (9 / 2 + 1)).length = 4 := by rw [List.length_drop, hsl]
    have hl1 : l1.length = 4 := by rw [hl.length_eq hq, hlen1]
    have hr1 : r1.length = 4 := by rw [hr.length_eq hq, hlen2]
    rw [hx] at hw1
    subst hw1
    subst hnd
    obtain ⟨hp1, hp2, hp3⟩ := window_parts _ 0 9 l1 r1 x hwin (by rw [hl1, hr1])
    rw [hl1] at hp1 hp2 hp3
    rw [hr1] at hp3
    have hne : left ≠ kd_node.NULL := hl.ne_null (by rw [hlen1]; decide)
    have htl := hl.tuples_eq hq
      (List.take 0 overflow9 ++ (l1 ++ [x] ++ r1) ++ List.drop (0 + 9) overflow9)
    have htr := hr.tuples_eq hq
      (List.take 0 overflow9 ++ (l1 ++ [x] ++ r1) ++ List.drop (0 + 9) overflow9)
    rw [hlen1, hp1] at htl
    rw [hlen2, hp3] at htr
    show kd_node.split_ordered
      (List.take 0 overflow9 ++ (l1 ++ [x] ++ r1) ++ List.drop (0 + 9) overflow9) 2 [0, 1]
      (kd_node.node (0 + 4) 1 left right) 0 = false
    generalize List.take 0 overflow9 ++ (l1 ++ [x] ++ r1) ++ List.drop (0 + 9) overflow9 = B
      at hp2 htl htr
    by_contra hcon
    have htrue := Bool.eq_true_of_not_eq_false hcon
    rw [kd_node.split_ordered, if_neg (fun hc => hne hc.1), htl, htr, hp2] at htrue
    simp only [Bool.and_eq_true, List.all_eq_true, decide_eq_true_eq] at htrue
    obtain ⟨⟨⟨hle, hge⟩, _⟩, _⟩ := htrue
    have hxo : x ∈ overflow9 := hsw.mem_iff.mp hxs
    -- every tuple of the sorted window has the first component of the split tuple
    have hall : ∀ t ∈ s, comp t 0 = comp x 0 := by
      intro t ht
      have hto : t ∈ overflow9 := hsw.mem_iff.mp ht
      rw [split_at_median s (9 / 2), hx] at ht
      rcases List.mem_append.mp ht with h1 | h1
      · have h2 := hle t ((hl.perm hq).mem_iff.mpr h1)
        have h3 := overflow9_inverted t hto x hxo (hbefore t h1)
        simp only [show ([0, 1] : List Nat).getD (0 % 2) 0 = 0 from rfl] at h2
        omega
      · rcases List.mem_append.mp h1 with h1 | h1
        · rw [List.mem_singleton.mp h1]
        · have h2 := hge t ((hr.perm hq).mem_iff.mpr h1)
          have h3 := overflow9_inverted x hxo t hto (hafter t h1)
          simp only [show ([0, 1] : List Nat).getD (0 % 2) 0 = 0 from rfl] at h2
          omega
    have e1 := hall [-2, 0] (hsw.mem_iff.mpr (by decide))
    have e2 := hall [2147483647, 1] (hsw.mem_iff.mpr (by decide))
    rw [← e2] at e1
    revert e1
    decide

theorem overflow2_stats :
    dimstats_diff (List.foldl dimstats_scan (dimstats_init 2) (List.take 2 overflow2))
      = [{ min := -11, max := 2147483647, diff := -2147483638, idx := 0 },
         { min := 0, max := 5, diff := 5, idx := 1 }] := by
  decide

/-- On `overflow2` the order array is `[0, 1]` whatever the library sort is, as long
as it rearranges its input and sorts it when the comparison is consistent. -/
theorem spread_order_overflow_any_sort (qsort : Sorter dimstats)
    (hq : SortPermutes qsort) (hs : SortSorts qsort) :
    calc_dimstats qsort ⟨overflow2, 0, 0⟩ 2 2
      = some ([0, 1], { buf := overflow2, mallocs := 2, frees := 1 }) := by
  have hcons : Consistent dim_compar
      [{ min := -11, max := 2147483647, diff := -2147483638, idx := 0 },
       { min := 0, max := 5, diff := 5, idx := 1 }] := by
    constructor
    · decide
    · decide
  have hperm := hq dim_compar
      [{ min := -11, max := 2147483647, diff := -2147483638, idx := 0 },
       { min := 0, max := 5, diff := 5, idx := 1 }]
  have hsorted := hs dim_compar _ hcons
  have hsort : qsort dim_compar
      [{ min := -11, max := 2147483647, diff := -2147483638, idx := 0 },
       { min := 0, max := 5, diff := 5, idx := 1 }]
      = [{ min := -11, max := 2147483647, diff := -2147483638, idx := 0 },
         { min := 0, max := 5, diff := 5, idx := 1 }] := by
    generalize qsort dim_compar
      [{ min := -11, max := 2147483647, diff := -2147483638, idx := 0 },
       { min := 0, max := 5, diff := 5, idx := 1 }] = s at hperm hsorted
    obtain ⟨x, y, rfl⟩ := List.length_eq_two.mp hperm.length_eq
    have hx := hperm.mem_iff.mp (List.mem_cons_self x [y])
    have hy := hperm.mem_iff.mp (List.mem_cons_of_mem x (List.mem_cons_self y []))
    have ha := hperm.mem_iff.mpr (List.mem_cons_self _ _)
    have hb := hperm.mem_iff.mpr (List.mem_cons_of_mem _ (List.mem_cons_self _ []))
    have hxy := (List.pairwise_cons.mp hsorted).1 y (List.mem_cons_self y [])
    simp only [List.mem_cons, List.mem_singleton, List.not_mem_nil, or_false] at hx hy ha hb
    rcases hx with rfl | rfl <;> rcases hy with rfl | rfl
    · revert hb; decide
    · rfl
    · revert hxy; decide
    · revert ha; decide
  unfold calc_dimstats
  rw [if_neg (by decide)]
  simp only [overflow2_stats, hsort]
  rfl

/-! ## One run, one result -/

/-- A window has one derivation: the contents it ends with and the node returned
are determined by the depth, the place and the contents of the window. -/
theorem Built.functional {qsort_r : Sorter Tuple} {k : Nat} {order : List Nat}
    {depth points : Nat} {w w1 : List Tuple} {nd : kd_node}
    (h : Built qsort_r k order depth points w w1 nd) :
    ∀ {w2 : List Tuple} {nd2 : kd_node},
      Built qsort_r k order depth points w w2 nd2 → w2 = w1 ∧ nd2 = nd := by
  induction h with
  | null =>
    intro w2 nd2 h2
    cases h2 with
    | null => exact ⟨rfl, rfl⟩
    | leaf _ _ _ _ h0 => simp at h0
    | split _ _ _ _ _ _ _ _ _ h8 => simp at h8
  | leaf depth points w axis h0 h8 ha =>
    intro w2 nd2 h2
    exact ⟨(h2.leaf_inv h0 h8).2, (h2.leaf_inv h0 h8).1⟩
  | split depth points w s l1 r1 axis left right h8 ha hs hl hr ihl ihr =>
    intro w2 nd2 h2
    obtain ⟨axis2, s2, l2, r2, left2, right2, ha2, hs2, hl2, hr2, hw2, hnd2⟩ :=
      h2.split_inv h8
    have hax : axis2 = axis := by
      rw [ha] at ha2
      exact (Option.some.inj ha2).symm
    subst hax
    have hss : s2 = s := by rw [hs, hs2]
    subst hss
    obtain ⟨e1, e2⟩ := ihl hl2
    obtain ⟨e3, e4⟩ := ihr hr2
    subst e1 e2 e3 e4
    exact ⟨hw2, hnd2⟩

/-- Fuel above the size of the window does not change the result. -/
theorem kdt_new_in_fuel_enough (qsort_r : Sorter Tuple) (k : Nat) (order : List Nat)
    (hq : SortPermutes qsort_r) (hk : 0 < k) (ho : k ≤ order.length)
    (fuel : Nat) (m : Mem) (points n depth : Nat) (hin : points + n ≤ m.buf.length)
    (hf : n < fuel) :
    kdt_new_in_fuel qsort_r k order fuel m points n depth
      = kdt_new_in qsort_r k order m points n depth := by
  have hp : (m.buf.take points).length = points := by rw [List.length_take]; omega
  have hw : (window m.buf points n).length = n := window_length m.buf points n hin
  obtain ⟨nd1, w1, he1, hb1⟩ := kdt_new_in_fuel_built qsort_r k order hq hk ho fuel m
    points n depth _ _ _ (buf_split m.buf points n) hp hw hf
  obtain ⟨nd2, w2, he2, hb2⟩ := kdt_new_in_fuel_built qsort_r k order hq hk ho (n + 1) m
    points n depth _ _ _ (buf_split m.buf points n) hp hw (by omega)
  obtain ⟨e1, e2⟩ := hb1.functional hb2
  subst e1 e2
  unfold kdt_new_in
  rw [he1, he2]

/-- On a node that is not `NULL`, `kdt_cleanup` releases the nodes of the tree in
post-order, one call of `free` for each, and leaves `NULL`. -/
theorem kdt_cleanup_present (nd : kd_node) :
    ∀ mem : Mem, nd ≠ kd_node.NULL →
      kdt_cleanup nd mem
        = some (kd_node.NULL, { mem with frees := mem.frees + nd.size }, nd.postorder) := by
  induction nd with
  | NULL => intro mem h; exact absurd rfl h
  | node value nb left right ihl ihr =>
    intro mem _
    rw [kdt_cleanup]
    by_cases hl : left = kd_node.NULL
    · by_cases hr : right = kd_node.NULL
      · subst hl hr
        simp [kd_node.size, kd_node.postorder]
      · subst hl
        simp only [if_true, if_neg hr, ihr mem hr]
        simp [kd_node.size, kd_node.postorder]
        omega
    · by_cases hr : right = kd_node.NULL
      · subst hr
        simp only [if_neg hl, ihl mem hl, if_true]
        simp [kd_node.size, kd_node.postorder]
        omega
      · simp only [if_neg hl, ihl mem hl, if_neg hr, ihr _ hr]
        simp [kd_node.size, kd_node.postorder]
        omega

theorem postorder_length (nd : kd_node) : nd.postorder.length = nd.size := by
  induction nd with
  | NULL => rfl
  | node value nb left right ihl ihr =>
    simp only [kd_node.postorder, kd_node.size, List.length_append, List.length_singleton,
      ihl, ihr]
    omega

/-- Every node of a built tree points into the window it was built from, to a
run of `nb` tuples that is not empty and ends inside the window. -/
theorem Built.postorder_range {qsort_r : Sorter Tuple} {k : Nat} {order : List Nat}
    (hq : SortPermutes qsort_r) {depth points : Nat} {w w1 : List Tuple} {nd : kd_node}
    (h : Built qsort_r k order depth points w w1 nd) :
    ∀ r ∈ nd.postorder, points ≤ r.1 ∧ 0 < r.2 ∧ r.1 + r.2 ≤ points + w.length := by
  induction h with
  | null => intro r hr; simp [kd_node.postorder] at hr
  | leaf depth points w axis h0 h8 ha =>
    intro r hr
    simp only [kd_node.postorder, List.nil_append, List.mem_singleton] at hr
    subst hr
    simp only
    omega
  | split depth points w s l1 r1 axis left right h8 ha hs hl hr ihl ihr =>
    obtain ⟨hlen1, hlen2⟩ := split_lengths hq (fun a b => kdt_compar a b axis) w
    rw [← hs] at hlen1 hlen2
    rw [hlen1] at ihl
    rw [hlen2] at ihr
    intro r hr
    simp only [kd_node.postorder, List.mem_append, List.mem_singleton] at hr
    rcases hr with (h1 | h1) | h1
    · have := ihl r h1
      omega
    · have := ihr r h1
      omega
    · subst h1
      simp only
      omega

/-- The nodes of a built tree point to pairwise different tuples. -/
theorem Built.postorder_nodup {qsort_r : Sorter Tuple} {k : Nat} {order : List Nat}
    (hq : SortPermutes qsort_r) {depth points : Nat} {w w1 : List Tuple} {nd : kd_node}
    (h : Built qsort_r k order depth points w w1 nd) :
    (nd.postorder.map Prod.fst).Nodup := by
  induction h with
  | null => simp [kd_node.postorder]
  | leaf => simp [kd_node.postorder]
  | split depth points w s l1 r1 axis left right h8 ha hs hl hr ihl ihr =>
    obtain ⟨hlen1, hlen2⟩ := split_lengths hq (fun a b => kdt_compar a b axis) w
    rw [← hs] at hlen1 hlen2
    have hrl := hl.postorder_range hq
    have hrr := hr.postorder_range hq
    rw [hlen1] at hrl
    rw [hlen2] at hrr
    simp only [kd_node.postorder, List.map_append, List.map_cons, List.map_nil]
    refine List.Nodup.append (List.Nodup.append ihl ihr ?_) (List.nodup_singleton _) ?_
    · rw [List.disjoint_left]
      intro a ha1 ha2
      obtain ⟨x, hx, rfl⟩ := List.mem_map.mp ha1
      obtain ⟨y, hy, hxy⟩ := List.mem_map.mp ha2
      have := hrl x hx
      have := hrr y hy
      omega
    · rw [List.disjoint_left]
      intro a ha1 ha2
      rw [List.mem_singleton] at ha2
      rcases List.mem_append.mp ha1 with h1 | h1
      · obtain ⟨x, hx, rfl⟩ := List.mem_map.mp h1
        have := hrl x hx
        omega
      · obtain ⟨y, hy, rfl⟩ := List.mem_map.mp h1
        have := hrr y hy
        omega

/-! ## The shape of a built tree -/

theorem Built.full_nodes {qsort_r : Sorter Tuple} {k : Nat} {order : List Nat}
    (hq : SortPermutes qsort_r) {depth points : Nat} {w w1 : List Tuple} {nd : kd_node}
    (h : Built qsort_r k order depth points w w1 nd) : nd.all_nodes kd_node.full := by
  induction h with
  | null => simp [kd_node.all_nodes]
  | leaf => exact ⟨Or.inl ⟨rfl, rfl⟩, trivial, trivial⟩
  | split depth points w s l1 r1 axis left right h8 ha hs hl hr ihl ihr =>
    obtain ⟨hlen1, hlen2⟩ := split_lengths hq (fun a b => kdt_compar a b axis) w
    rw [← hs] at hlen1 hlen2
    refine ⟨Or.inr ⟨?_, ?_, rfl, ?_, ?_⟩, ihl, ihr⟩
    · exact hl.ne_null (by rw [hlen1]; omega)
    · exact hr.ne_null (by rw [hlen2]; omega)
    · rw [hl.count_eq hq, hlen1]; omega
    · rw [hr.count_eq hq, hlen2]; omega

theorem Built.leaf_sizes_ge {qsort_r : Sorter Tuple} {k : Nat} {order : List Nat}
    (hq : SortPermutes qsort_r) {depth points : Nat} {w w1 : List Tuple} {nd : kd_node}
    (h : Built qsort_r k order depth points w w1 nd) :
    4 ≤ w.length → ∀ nb ∈ nd.leaf_sizes, 4 ≤ nb := by
  induction h with
  | null => intro h4; simp at h4
  | leaf depth points w axis h0 h8 ha =>
    intro h4 nb hnb
    simp only [kd_node.leaf_sizes, and_self, if_true, List.mem_singleton] at hnb
    omega
  | split depth points w s l1 r1 axis left right h8 ha hs hl hr ihl ihr =>
    obtain ⟨hlen1, hlen2⟩ := split_lengths hq (fun a b => kdt_compar a b axis) w
    rw [← hs] at hlen1 hlen2
    have hne : left ≠ kd_node.NULL := hl.ne_null (by rw [hlen1]; omega)
    intro _ nb hnb
    rw [kd_node.leaf_sizes, if_neg (fun hc => hne hc.1), List.mem_append] at hnb
    rcases hnb with h1 | h1
    · exact ihl (by rw [hlen1]; omega) nb h1
    · exact ihr (by rw [hlen2]; omega) nb h1

/-- Every call of `kdt_new_in` on a window inside the buffer returns: the fuel of
`kdt_new_in` is enough, more fuel gives the same result, and the two calls made
for a window of more than eight tuples are on smaller windows. -/
theorem kdt_new_in_terminates (qsort_r : Sorter Tuple) (hq : SortPermutes qsort_r)
    (k : Nat) (order : List Nat) (hk : 1 ≤ k) (ho : order.Perm (List.range k))
    (m : Mem) (points n depth : Nat) (hin : points + n ≤ m.buf.length) :
    (∃ nd m1, kdt_new_in qsort_r k order m points n depth = some (nd, m1)) ∧
    (∀ fuel, n < fuel →
      kdt_new_in_fuel qsort_r k order fuel m points n depth
        = kdt_new_in qsort_r k order m points n depth) ∧
    (8 < n → n / 2 < n ∧ n - n / 2 - 1 < n) := by
  have hol := perm_range_length ho
  obtain ⟨nd, w1, he, _⟩ := kdt_new_in_built qsort_r k order hq hk hol m points n depth hin
  refine ⟨⟨nd, _, he⟩, ?_, ?_⟩
  · intro fuel hf
    exact kdt_new_in_fuel_enough qsort_r k order hq hk hol fuel m points n depth hin hf
  · intro h8
    omega

/-- The split ordering of the tree built from `ties20_small`, whose tuples all
have the same value on dimension 0. -/
theorem split_ordering_ties20_small :
    ∃ t m1, kdt_new insertion_qsort ⟨ties20_small, 0, 0⟩ 0 20 2 [0, 1] = some (t, m1) ∧
      t.root.split_ordered m1.buf 2 [0, 1] 0 = true :=
  split_ordering_no_overflow insertion_qsort insertion_qsort_permutes insertion_qsort_sorts
    ⟨ties20_small, 0, 0⟩ 2 [0, 1] (by decide) (by decide)
    (NoOverflow.of_small_values ties20_small (by decide))

/-- Where the difference of the two components fits a C `int`, the sign of
`kdt_compar` is the order of the components. -/
theorem kdt_compar_sign (a b : Tuple) (off : Nat)
    (h1 : -2147483648 ≤ comp a off - comp b off)
    (h2 : comp a off - comp b off ≤ 2147483647) :
    (kdt_compar a b off < 0 ↔ comp a off < comp b off) ∧
    (kdt_compar a b off = 0 ↔ comp a off = comp b off) ∧
    (0 < kdt_compar a b off ↔ comp b off < comp a off) := by
  unfold kdt_compar
  rw [wrap32_small _ h1 h2]
  omega

/-! ## Two library sorts -/

theorem reverse_qsort_permutes {α : Type} : SortPermutes (reverse_qsort : Sorter α) := by
  intro cmp l
  exact (insertion_qsort_permutes cmp l.reverse).trans (List.reverse_perm l)

theorem reverse_qsort_sorts {α : Type} : SortSorts (reverse_qsort : Sorter α) := by
  intro cmp l hc
  exact insertion_qsort_sorts cmp l.reverse
    (hc.restrict (fun x hx => List.mem_reverse.mp hx))

/-- A window with pairwise distinct components on the axis, none of whose
comparisons overflows, has one sorted arrangement. -/
theorem sorted_unique {w s1 s2 : List Tuple} {axis : Nat} (hno : NoOverflow w)
    (hd : (w.map (fun t => comp t axis)).Nodup)
    (hp1 : s1.Perm w) (hp2 : s2.Perm w)
    (hs1 : s1.Pairwise (fun a b => kdt_compar a b axis ≤ 0))
    (hs2 : s2.Pairwise (fun a b => kdt_compar a b axis ≤ 0)) : s1 = s2 := by
  have strict : ∀ s : List Tuple, s.Perm w →
      s.Pairwise (fun a b => kdt_compar a b axis ≤ 0) →
      s.Pairwise (fun a b => comp a axis < comp b axis) := by
    intro s hp hs
    have hnd : (s.map (fun t => comp t axis)).Nodup :=
      ((hp.map (fun t => comp t axis)).nodup_iff).mpr hd
    have hne : s.Pairwise (fun a b => comp a axis ≠ comp b axis) :=
      List.pairwise_map.mp hnd
    apply List.Pairwise.imp_of_mem _ (hs.and hne)
    intro a b ha hb hab
    have h1 := hab.1
    rw [kdt_compar_small hno (hp.mem_iff.mp ha) (hp.mem_iff.mp hb)] at h1
    have h2 := hab.2
    omega
  haveI : IsAntisymm Tuple (fun a b => comp a axis < comp b axis) :=
    ⟨fun a b h1 h2 => absurd h1 (lt_asymm h2)⟩
  exact List.eq_of_perm_of_sorted (hp1.trans hp2.symm) (strict s1 hp1 hs1)
    (strict s2 hp2 hs2)

/-- A derivation with one library sort is a derivation with any other, when no
comparison overflows and the sorted windows have pairwise distinct components
on their axis. -/
theorem Built.transfer {qsort_a qsort_b : Sorter Tuple} {k : Nat} {order : List Nat}
    (hqa : SortPermutes qsort_a) (hsa : SortSorts qsort_a)
    (hqb : SortPermutes qsort_b) (hsb : SortSorts qsort_b)
    {depth points : Nat} {w w1 : List Tuple} {nd : kd_node}
    (h : Built qsort_a k order depth points w w1 nd) :
    NoOverflow w → DistinctKeys qsort_a k order depth w →
      Built qsort_b k order depth points w w1 nd := by
  induction h with
  | null => intro _ _; exact Built.null _ _
  | leaf depth points w axis h0 h8 ha => intro _ _; exact Built.leaf depth points w axis h0 h8 ha
  | split depth points w s l1 r1 axis left right h8 ha hs hl hr ihl ihr =>
    intro hno hdk
    cases hdk with
    | small _ _ h9 => omega
    | split _ _ axis2 _ ha2 hd hdl hdr =>
      have hax : axis2 = axis := by
        rw [ha] at ha2
        exact (Option.some.inj ha2).symm
      subst hax
      rw [← hs] at hdl hdr
      have hsw : s.Perm w := by rw [hs]; exact hqa _ w
      have hcons := kdt_compar_consistent hno axis2
      have hsb2 : s = qsort_b (fun a b => kdt_compar a b axis2) w := by
        apply sorted_unique hno hd hsw (hqb _ w)
        · rw [hs]; exact hsa _ w hcons
        · exact hsb _ w hcons
      have hnol : NoOverflow (s.take (w.length / 2)) :=
        hno.sublist_ok (fun t ht => hsw.mem_iff.mp (List.mem_of_mem_take ht))
      have hnor : NoOverflow (s.drop (w.length / 2 + 1)) :=
        hno.sublist_ok (fun t ht => hsw.mem_iff.mp (List.mem_of_mem_drop ht))
      exact Built.split depth points w s l1 r1 axis2 left right h8 ha hsb2
        (ihl hnol hdl) (ihr hnor hdr)

/-- Determinism where no comparison overflows. Two library sorts that rearrange
their window and sort it when the comparison is consistent give the same tree and
the same final memory, for a buffer on which no comparison overflows and every
window that gets sorted has pairwise distinct components on its axis. -/
theorem determinism_no_overflow (qsort_a qsort_b : Sorter Tuple)
    (hqa : SortPermutes qsort_a) (hsa : SortSorts qsort_a)
    (hqb : SortPermutes qsort_b) (hsb : SortSorts qsort_b)
    (m : Mem) (k : Nat) (order : List Nat) (hk : 1 ≤ k) (ho : order.Perm (List.range k))
    (hno : NoOverflow m.buf) (hdk : DistinctKeys qsort_a k order k m.buf) :
    kdt_new qsort_a m 0 m.buf.length k order = kdt_new qsort_b m 0 m.buf.length k order ∧
    ∃ t m1, kdt_new qsort_a m 0 m.buf.length k order = some (t, m1) := by
  have hol := perm_range_length ho
  obtain ⟨nda, wa, hea, hba⟩ := kdt_new_built qsort_a k order hqa hk hol m
  obtain ⟨ndb, wb, heb, hbb⟩ := kdt_new_built qsort_b k order hqb hk hol m
  obtain ⟨e1, e2⟩ := (hba.transfer hqa hsa hqb hsb hno hdk).functional hbb
  subst e1 e2
  exact ⟨by rw [hea, heb], _, _, hea⟩

/-- The sorted windows of the build of `distinct20` have pairwise distinct
components on their axis. -/
theorem distinct20_keys : DistinctKeys insertion_qsort 2 [0, 1] 2 distinct20 :=
  DistinctKeys.split 2 distinct20 0 (by decide) (by decide) (by decide)
    (DistinctKeys.split 3 _ 1 (by decide) (by decide) (by decide)
      (DistinctKeys.small _ _ (by decide)) (DistinctKeys.small _ _ (by decide)))
    (DistinctKeys.split 3 _ 1 (by decide) (by decide) (by decide)
      (DistinctKeys.small _ _ (by decide)) (DistinctKeys.small _ _ (by decide)))

/-- The two library sorts build the same tree and buffer from `distinct20`. -/
theorem determinism_distinct20 :
    kdt_new insertion_qsort ⟨distinct20, 0, 0⟩ 0 20 2 [0, 1]
      = kdt_new reverse_qsort ⟨distinct20, 0, 0⟩ 0 20 2 [0, 1] ∧
    ∃ t m1, kdt_new insertion_qsort ⟨distinct20, 0, 0⟩ 0 20 2 [0, 1] = some (t, m1) :=
  determinism_no_overflow insertion_qsort reverse_qsort insertion_qsort_permutes
    insertion_qsort_sorts reverse_qsort_permutes reverse_qsort_sorts ⟨distinct20, 0, 0⟩
    2 [0, 1] (by decide) (by decide) (NoOverflow.of_small_values distinct20 (by decide))
    distinct20_keys

/-! ## The index computations of the builder -/

/-- The builder with the record is the builder: without the record its result is
the result of `kdt_new_in_fuel`, for every input. -/
theorem kdt_new_in_traced_eq (qsort_r : Sorter Tuple) (k : Nat) (order : List Nat) :
    ∀ (fuel : Nat) (m : Mem) (points n depth : Nat),
      (kdt_new_in_traced qsort_r k order fuel m points n depth).map
          (fun r => (r.1, r.2.1))
        = kdt_new_in_fuel qsort_r k order fuel m points n depth := by
  intro fuel
  induction fuel with
  | zero => intro m points n depth; rfl
  | succ fuel ih =>
    intro m points n depth
    rw [kdt_new_in_traced, kdt_new_in_fuel]
    by_cases h0 : n = 0
    · simp [h0]
    · by_cases hk0 : k = 0
      · simp [h0, hk0]
      · simp only [h0, hk0, if_false]
        cases ha : order[depth % k]? with
        | none => rfl
        | some axis =>
          simp only []
          by_cases h8 : n ≤ 8
          · simp [h8]
          · simp only [h8, if_false]
            by_cases hlen : m.buf.length < points + n
            · simp [hlen]
            · simp only [hlen, if_false]
              have hl := ih
                { buf := sort_window qsort_r (fun a b => kdt_compar a b axis) m.buf points n,
                  mallocs := m.mallocs + 1, frees := m.frees } points (n / 2) (depth + 1)
              cases hL : kdt_new_in_traced qsort_r k order fuel
                { buf := sort_window qsort_r (fun a b => kdt_compar a b axis) m.buf points n,
                  mallocs := m.mallocs + 1, frees := m.frees } points (n / 2) (depth + 1) with
              | none =>
                rw [hL] at hl
                rw [← hl]
                rfl
              | some rl =>
                obtain ⟨left, m3, ul⟩ := rl
                rw [hL] at hl
                rw [← hl]
                simp only [Option.map_some']
                have hr := ih m3 (points + (n / 2 + 1)) (n - n / 2 - 1) (depth + 1)
                cases hR : kdt_new_in_traced qsort_r k order fuel m3 (points + (n / 2 + 1))
                    (n - n / 2 - 1) (depth + 1) with
                | none =>
                  rw [hR] at hr
                  rw [← hr]
                  rfl
                | some rr =>
                  obtain ⟨right, m4, ur⟩ := rr
                  rw [hR] at hr
                  rw [← hr]
                  rfl

/-- The record of a call on more than eight tuples holds the pointer arithmetic
of that call. -/
theorem kdt_new_in_traced_split (qsort_r : Sorter Tuple) (k : Nat) (order : List Nat)
    (fuel : Nat) (m : Mem) (points n depth : Nat) (nd : kd_node) (m1 : Mem)
    (uses : List index_use) (h8 : 8 < n)
    (h : kdt_new_in_traced qsort_r k order (fuel + 1) m points n depth
          = some (nd, m1, uses)) :
    index_use.split k n (n / 2) (wrap32 (((n / 2 : Nat) : Int) * (k : Int)))
        (wrap32 ((((n / 2 : Nat) : Int) + 1) * (k : Int))) (n / 2) (n - n / 2 - 1)
      ∈ uses := by
  rw [kdt_new_in_traced] at h
  have h0 : n ≠ 0 := by omega
  have hn8 : ¬ n ≤ 8 := by omega
  by_cases hk0 : k = 0
  · simp [h0, hk0] at h
  · simp only [h0, hk0, if_false, hn8] at h
    cases ha : order[depth % k]? with
    | none => rw [ha] at h; simp at h
    | some axis =>
      rw [ha] at h
      simp only [] at h
      by_cases hlen : m.buf.length < points + n
      · simp [hlen] at h
      · simp only [hlen, if_false] at h
        cases hL : kdt_new_in_traced qsort_r k order fuel
            { buf := sort_window qsort_r (fun a b => kdt_compar a b axis) m.buf points n,
              mallocs := m.mallocs + 1, frees := m.frees } points (n / 2) (depth + 1) with
        | none => rw [hL] at h; simp at h
        | some rl =>
          obtain ⟨left, m3, ul⟩ := rl
          rw [hL] at h
          simp only [] at h
          cases hR : kdt_new_in_traced qsort_r k order fuel m3 (points + (n / 2 + 1))
              (n - n / 2 - 1) (depth + 1) with
          | none => rw [hR] at h; simp at h
          | some rr =>
            obtain ⟨right, m4, ur⟩ := rr
            rw [hR] at h
            simp only [Option.some.injEq, Prod.mk.injEq] at h
            rw [← h.2.2]
            simp

/-- The record of a call on a window that is not empty holds the read of the
order array of that call. -/
theorem kdt_new_in_traced_lookup (qsort_r : Sorter Tuple) (k : Nat) (order : List Nat)
    (fuel : Nat) (m : Mem) (points n depth : Nat) (nd : kd_node) (m1 : Mem)
    (uses : List index_use) (h0 : n ≠ 0)
    (h : kdt_new_in_traced qsort_r k order (fuel + 1) m points n depth
          = some (nd, m1, uses)) :
    ∃ axis, order[depth % k]? = some axis ∧
      index_use.lookup depth k (depth % k) axis ∈ uses := by
  rw [kdt_new_in_traced] at h
  by_cases hk0 : k = 0
  · simp [h0, hk0] at h
  · simp only [h0, hk0, if_false] at h
    cases ha : order[depth % k]? with
    | none => rw [ha] at h; simp at h
    | some axis =>
      rw [ha] at h
      simp only [] at h
      refine ⟨axis, rfl, ?_⟩
      by_cases h8 : n ≤ 8
      · simp only [h8, if_true, Option.some.injEq, Prod.mk.injEq] at h
        rw [← h.2.2]
        simp
      · simp only [h8, if_false] at h
        by_cases hlen : m.buf.length < points + n
        · simp [hlen] at h
        · simp only [hlen, if_false] at h
          cases hL : kdt_new_in_traced qsort_r k order fuel
              { buf := sort_window qsort_r (fun a b => kdt_compar a b axis) m.buf points n,
                mallocs := m.mallocs + 1, frees := m.frees } points (n / 2) (depth + 1) with
          | none => rw [hL] at h; simp at h
          | some rl =>
            obtain ⟨left, m3, ul⟩ := rl
            rw [hL] at h
            simp only [] at h
            cases hR : kdt_new_in_traced qsort_r k order fuel m3 (points + (n / 2 + 1))
                (n - n / 2 - 1) (depth + 1) with
            | none => rw [hR] at h; simp at h
            | some rr =>
              obtain ⟨right, m4, ur⟩ := rr
              rw [hR] at h
              simp only [Option.some.injEq, Prod.mk.injEq] at h
              rw [← h.2.2]
              simp

/-- The pointer arithmetic of a call on `n > 8` tuples is in range when the `n*k`
elements of its window fit a C `int`. -/
theorem split_in_range (order : List Nat) (k n : Nat) (h8 : 8 < n)
    (hsz : n * k ≤ 2147483647) :
    (index_use.split k n (n / 2) (wrap32 (((n / 2 : Nat) : Int) * (k : Int)))
        (wrap32 ((((n / 2 : Nat) : Int) + 1) * (k : Int))) (n / 2)
        (n - n / 2 - 1)).in_range order k := by
  have hnat : n / 2 * k + k + (n - n / 2 - 1) * k = n * k := by
    have e : n / 2 + 1 + (n - n / 2 - 1) = n := by omega
    calc n / 2 * k + k + (n - n / 2 - 1) * k
        = (n / 2 + 1 + (n - n / 2 - 1)) * k := by rw [Nat.add_mul, Nat.add_mul, Nat.one_mul]
      _ = n * k := by rw [e]
  have hint : ((n / 2 : Nat) : Int) * (k : Int) + (k : Int)
      + ((n - n / 2 - 1 : Nat) : Int) * (k : Int) = (n : Int) * (k : Int) := by
    exact_mod_cast hnat
  have hszi : (n : Int) * (k : Int) ≤ 2147483647 := by exact_mod_cast hsz
  have ha : (0 : Int) ≤ ((n / 2 : Nat) : Int) * (k : Int) :=
    Int.mul_nonneg (Int.ofNat_nonneg _) (Int.ofNat_nonneg _)
  have hc : (0 : Int) ≤ ((n - n / 2 - 1 : Nat) : Int) * (k : Int) :=
    Int.mul_nonneg (Int.ofNat_nonneg _) (Int.ofNat_nonneg _)
  have hk : (0 : Int) ≤ (k : Int) := Int.ofNat_nonneg _
  have hright : (((n / 2 : Nat) : Int) + 1) * (k : Int)
      = ((n / 2 : Nat) : Int) * (k : Int) + (k : Int) := by ring
  rw [hright]
  obtain ⟨A, hA⟩ : ∃ A : Int, A = ((n / 2 : Nat) : Int) * (k : Int) := ⟨_, rfl⟩
  obtain ⟨C, hC⟩ : ∃ C : Int, C = ((n - n / 2 - 1 : Nat) : Int) * (k : Int) := ⟨_, rfl⟩
  obtain ⟨T, hT⟩ : ∃ T : Int, T = (n : Int) * (k : Int) := ⟨_, rfl⟩
  rw [← hA, ← hC, ← hT] at hint
  rw [← hT] at hszi
  rw [← hA] at ha
  rw [← hC] at hc
  have e1 : wrap32 A = A := wrap32_small A (by omega) (by omega)
  have e2 : wrap32 (A + (k : Int)) = A + (k : Int) := wrap32_small _ (by omega) (by omega)
  simp only [index_use.in_range, ← hA, ← hC, ← hT, e1, e2]
  omega

/-- Every index computation of the builder is in range when the elements of the
window fit a C `int`. -/
theorem kdt_new_in_traced_in_range (qsort_r : Sorter Tuple) (k : Nat) (order : List Nat)
    (hk : 0 < k) (ho : order.Perm (List.range k)) :
    ∀ (fuel : Nat) (m : Mem) (points n depth : Nat) (nd : kd_node) (m1 : Mem)
      (uses : List index_use),
      kdt_new_in_traced qsort_r k order fuel m points n depth = some (nd, m1, uses) →
      n * k ≤ 2147483647 → ∀ u ∈ uses, u.in_range order k := by
  intro fuel
  induction fuel with
  | zero => intro m points n depth nd m1 uses h; simp [kdt_new_in_traced] at h
  | succ fuel ih =>
    intro m points n depth nd m1 uses h hsz
    have hk0 : k ≠ 0 := Nat.pos_iff_ne_zero.mp hk
    have hlookup : ∀ axis, order[depth % k]? = some axis →
        (index_use.lookup depth k (depth % k) axis).in_range order k := by
      intro axis ha
      have hlt : depth % k < k := Nat.mod_lt _ hk
      refine ⟨hk0, rfl, hlt, ?_, ha, ?_⟩
      · rw [ho.length_eq, List.length_range]; exact hlt
      · exact List.mem_range.mp (ho.mem_iff.mp (List.getElem?_mem ha))
    rw [kdt_new_in_traced] at h
    by_cases h0 : n = 0
    · simp only [h0, if_true, Option.some.injEq, Prod.mk.injEq] at h
      intro u hu
      rw [← h.2.2] at hu
      simp at hu
    · simp only [h0, hk0, if_false] at h
      cases ha : order[depth % k]? with
      | none => rw [ha] at h; simp at h
      | some axis =>
        rw [ha] at h
        simp only [] at h
        by_cases h8 : n ≤ 8
        · simp only [h8, if_true, Option.some.injEq, Prod.mk.injEq] at h
          intro u hu
          rw [← h.2.2, List.mem_singleton] at hu
          rw [hu]
          exact hlookup axis ha
        · simp only [h8, if_false] at h
          by_cases hlen : m.buf.length < points + n
          · simp [hlen] at h
          · simp only [hlen, if_false] at h
            cases hL : kdt_new_in_traced qsort_r k order fuel
                { buf := sort_window qsort_r (fun a b => kdt_compar a b axis) m.buf points n,
                  mallocs := m.mallocs + 1, frees := m.frees } points (n / 2) (depth + 1) with
            | none => rw [hL] at h; simp at h
            | some rl =>
              obtain ⟨left, m3, ul⟩ := rl
              rw [hL] at h
              simp only [] at h
              cases hR : kdt_new_in_traced qsort_r k order fuel m3 (points + (n / 2 + 1))
                  (n - n / 2 - 1) (depth + 1) with
              | none => rw [hR] at h; simp at h
              | some rr =>
                obtain ⟨right, m4, ur⟩ := rr
                rw [hR] at h
                simp only [Option.some.injEq, Prod.mk.injEq] at h
                have hszl : n / 2 * k ≤ 2147483647 :=
                  le_trans (Nat.mul_le_mul_right k (Nat.div_le_self n 2)) hsz
                have hszr : (n - n / 2 - 1) * k ≤ 2147483647 :=
                  le_trans (Nat.mul_le_mul_right k (by omega)) hsz
                intro u hu
                rw [← h.2.2] at hu
                simp only [List.mem_cons, List.mem_append] at hu
                rcases hu with rfl | rfl | hu | hu
                · exact hlookup axis ha
                · exact split_in_range order k n (by omega) hsz
                · exact ih _ _ _ _ _ _ _ hL hszl u hu
                · exact ih _ _ _ _ _ _ _ hR hszr u hu

/-- The entry point returns the tree of the root call at depth `k`. -/
theorem kdt_new_of_root_call (qsort_r : Sorter Tuple) (m : Mem) (points n k : Nat)
    (order : List Nat) (nd : kd_node) (m1 : Mem)
    (h : kdt_new_in qsort_r k order m points n k = some (nd, m1)) :
    kdt_new qsort_r m points n k order = some ({ k := k, root := nd }, m1) := by
  unfold kdt_new
  rw [h]

/-! ## The claims -/

/-- C2 (split ordering), evaluated at `overflow9`. The comparison of `INT_MAX` with
`-2` overflows in `kdt_compar` and comes out negative, so the sort puts the tuples
with `INT_MAX` first; the split tuple at index 4 has first component `INT_MAX`,
the four tuples of the right subtree have `-2`, and the split ordering fails. -/
theorem split_ordering_overflow :
    kdt_compar [2147483647, 1] [-2, 0] 0 = -2147483647 ∧
    kdt_new insertion_qsort ⟨overflow9, 0, 0⟩ 0 9 2 [0, 1]
      = some ({ k := 2,
                root := kd_node.node 4 1 (kd_node.node 0 4 kd_node.NULL kd_node.NULL)
                                         (kd_node.node 5 4 kd_node.NULL kd_node.NULL) },
              { buf := [[2147483647, 1], [2147483647, 3], [2147483647, 5],
                        [2147483647, 7], [2147483647, 8],
                        [-2, 0], [-2, 2], [-2, 4], [-2, 6]],
                mallocs := 3, frees := 0 }) ∧
    (kd_node.node 4 1 (kd_node.node 0 4 kd_node.NULL kd_node.NULL)
                      (kd_node.node 5 4 kd_node.NULL kd_node.NULL)).split_ordered
        [[2147483647, 1], [2147483647, 3], [2147483647, 5], [2147483647, 7],
         [2147483647, 8], [-2, 0], [-2, 2], [-2, 4], [-2, 6]] 2 [0, 1] 0 = false := by
  decide

/-- C4 (leaf-size bound). The node a call of `kdt_new_in` returns for a window of
`n` tuples is a leaf exactly when `1 ≤ n ≤ 8`; the same holds of the root that
`kdt_new` builds from the whole buffer and of every node of the tree with the
number of tuples it holds; and every leaf of a built tree has `1 ≤ nb ≤ 8`. -/
theorem leaf_size_bound (qsort_r : Sorter Tuple) (hq : SortPermutes qsort_r)
    (k : Nat) (order : List Nat) (hk : 1 ≤ k) (ho : order.Perm (List.range k))
    (m : Mem) (points n depth : Nat) (hin : points + n ≤ m.buf.length) :
    (∃ nd m1, kdt_new_in qsort_r k order m points n depth = some (nd, m1) ∧
      (nd.is_leaf = true ↔ 1 ≤ n ∧ n ≤ 8) ∧
      (∀ nb ∈ nd.leaf_sizes, 1 ≤ nb ∧ nb ≤ 8)) ∧
    (∃ t m1, kdt_new qsort_r m 0 m.buf.length k order = some (t, m1) ∧
      (t.root.is_leaf = true ↔ 1 ≤ m.buf.length ∧ m.buf.length ≤ 8) ∧
      (∀ nb ∈ t.root.leaf_sizes, 1 ≤ nb ∧ nb ≤ 8) ∧
      t.root.all_nodes (fun x => x.is_leaf = true ↔ 1 ≤ x.count ∧ x.count ≤ 8)) := by
  constructor
  · obtain ⟨nd, w1, he, hb⟩ :=
      kdt_new_in_built qsort_r k order hq hk (perm_range_length ho) m points n depth hin
    have hw : (window m.buf points n).length = n := window_length m.buf points n hin
    refine ⟨nd, _, he, ?_, hb.leaf_sizes_bound hq⟩
    rw [hb.is_leaf_iff hq, hw]
  · obtain ⟨nd, w1, he, hb⟩ := kdt_new_built qsort_r k order hq hk (perm_range_length ho) m
    exact ⟨_, _, he, hb.is_leaf_iff hq, hb.leaf_sizes_bound hq, hb.all_leaf_iff hq⟩

/-- Instance of C4 on the ten tuples of `sample10`. -/
theorem leaf_size_bound_witness :
    (∃ nd m1, kdt_new_in insertion_qsort 2 [0, 1] ⟨sample10, 0, 0⟩ 6 4 1 = some (nd, m1) ∧
      (nd.is_leaf = true ↔ 1 ≤ 4 ∧ 4 ≤ 8) ∧
      (∀ nb ∈ nd.leaf_sizes, 1 ≤ nb ∧ nb ≤ 8)) ∧
    (∃ t m1, kdt_new insertion_qsort ⟨sample10, 0, 0⟩ 0 10 2 [0, 1] = some (t, m1) ∧
      (t.root.is_leaf = true ↔ 1 ≤ 10 ∧ 10 ≤ 8) ∧
      (∀ nb ∈ t.root.leaf_sizes, 1 ≤ nb ∧ nb ≤ 8) ∧
      t.root.all_nodes (fun x => x.is_leaf = true ↔ 1 ≤ x.count ∧ x.count ≤ 8)) :=
  leaf_size_bound insertion_qsort insertion_qsort_permutes 2 [0, 1] (by decide)
    (by decide) ⟨sample10, 0, 0⟩ 6 4 1 (by decide)

/-- C5 (leaf windows are taken as they are). For a window of `1 ≤ n ≤ 8` tuples
`kdt_new_in` returns one leaf that points to the first tuple of the window with
`nb = n`, whatever the library sort is; one level of calls is enough for it, so
no recursive call is made; one node is allocated and the buffer is what it was.
`kdt_new` on a buffer of at most eight tuples leaves the buffer as it was. -/
theorem leaf_window_as_is (qsort_r : Sorter Tuple) (k : Nat) (order : List Nat)
    (hk : 1 ≤ k) (ho : order.Perm (List.range k))
    (m : Mem) (points n depth : Nat) (h1 : 1 ≤ n) (h8 : n ≤ 8) :
    kdt_new_in qsort_r k order m points n depth
      = some (kd_node.node points n kd_node.NULL kd_node.NULL,
              { m with mallocs := m.mallocs + 1 }) ∧
    kdt_new_in_fuel qsort_r k order 1 m points n depth
      = some (kd_node.node points n kd_node.NULL kd_node.NULL,
              { m with mallocs := m.mallocs + 1 }) ∧
    (m.buf.length ≤ 8 →
      ∃ t m1, kdt_new qsort_r m 0 m.buf.length k order = some (t, m1) ∧ m1.buf = m.buf) := by
  obtain ⟨axis, ha⟩ := order_lookup k order hk (perm_range_length ho) depth
  obtain ⟨axis0, ha0⟩ := order_lookup k order hk (perm_range_length ho) k
  have hk0 : k ≠ 0 := by omega
  have hn0 : n ≠ 0 := by omega
  refine ⟨?_, ?_, ?_⟩
  · simp [kdt_new_in, kdt_new_in_fuel, hk0, hn0, ha, h8]
  · simp [kdt_new_in_fuel, hk0, hn0, ha, h8]
  · intro hle
    by_cases hz : m.buf.length = 0
    · refine ⟨{ k := k, root := kd_node.NULL }, m, ?_, rfl⟩
      simp [kdt_new, kdt_new_in, kdt_new_in_fuel, hz]
    · refine ⟨{ k := k, root := kd_node.node 0 m.buf.length kd_node.NULL kd_node.NULL },
        { m with mallocs := m.mallocs + 1 }, ?_, rfl⟩
      simp only [kdt_new, kdt_new_in, kdt_new_in_fuel, hk0, hz, if_false, ha0, hle, if_true]

/-- Instance of C5: the five tuples of `sample5` with a sort that would empty the
window if it were called. -/
theorem leaf_window_as_is_witness :
    kdt_new_in (fun _ _ => []) 2 [0, 1] ⟨sample5, 0, 0⟩ 0 5 0
      = some (kd_node.node 0 5 kd_node.NULL kd_node.NULL, ⟨sample5, 0 + 1, 0⟩) ∧
    kdt_new_in_fuel (fun _ _ => []) 2 [0, 1] 1 ⟨sample5, 0, 0⟩ 0 5 0
      = some (kd_node.node 0 5 kd_node.NULL kd_node.NULL, ⟨sample5, 0 + 1, 0⟩) ∧
    (sample5.length ≤ 8 →
      ∃ t m1, kdt_new (fun _ _ => []) ⟨sample5, 0, 0⟩ 0 sample5.length 2 [0, 1] = some (t, m1)
        ∧ m1.buf = sample5) :=
  leaf_window_as_is (fun _ _ => []) 2 [0, 1] (by decide) (by decide) ⟨sample5, 0, 0⟩ 0 5 0
    (by decide) (by decide)

/-- C6 (empty input). For every `k` and every axis order, `kdt_new_in` on an empty
window returns `NULL` and leaves the memory as it was (no node allocated, the
buffer untouched), and `kdt_new` with `N = 0` yields a tree whose root is `NULL`. -/
theorem empty_input (qsort_r : Sorter Tuple) (k : Nat) (order : List Nat)
    (m : Mem) (points depth : Nat) :
    kdt_new_in qsort_r k order m points 0 depth = some (kd_node.NULL, m) ∧
    kdt_new qsort_r m points 0 k order = some ({ k := k, root := kd_node.NULL }, m) := by
  simp [kdt_new, kdt_new_in, kdt_new_in_fuel]

/-- C7 (the root is built at depth 0). `kdt_new`, which starts the builder with
`k` as depth, returns the tree and the final memory that `kdt_new_in` returns
when started at depth 0: the root is split on `order[0]` and a node `d` levels
below it on `order[d mod k]`. -/
theorem kdt_new_root_depth (qsort_r : Sorter Tuple) (m : Mem) (points n k : Nat)
    (order : List Nat) :
    kdt_new qsort_r m points n k order
      = (kdt_new_in qsort_r k order m points n 0).map
          (fun r => ({ k := k, root := r.1 }, r.2)) := by
  have h := kdt_new_in_fuel_depth_shift qsort_r k order (n + 1) m points n 0
  rw [Nat.zero_add] at h
  unfold kdt_new kdt_new_in
  rw [h]
  cases kdt_new_in_fuel qsort_r k order (n + 1) m points n 0 with
  | none => rfl
  | some r => rfl

/-- C8 (axis order by ascending spread), evaluated at `overflow2`. The spread of
dimension 0 is `2147483658` and that of dimension 1 is `5`; `max - min` overflows
for dimension 0 and `calc_dimstats` stores a negative `diff`, so the order it
returns is `[0, 1]`: the larger spread comes first. -/
theorem spread_order_overflow :
    calc_dimstats insertion_qsort ⟨overflow2, 0, 0⟩ 2 2
      = some ([0, 1], { buf := overflow2, mallocs := 2, frees := 1 }) ∧
    spec_spread overflow2 0 = 2147483658 ∧ spec_spread overflow2 1 = 5 ∧
    ¬ (spec_spread overflow2 0 ≤ spec_spread overflow2 1) := by
  decide

/-- C9 (`calc_dimstats` returns a permutation). For a library sort that rearranges
its input, every buffer, every `N` up to the size of the buffer and every `dim`,
`calc_dimstats` returns an order array of length `dim` that holds each index
`0..dim-1` exactly once, and the buffer after the call is the buffer before it. -/
theorem calc_dimstats_permutation (qsort : Sorter dimstats) (hq : SortPermutes qsort)
    (m : Mem) (nb dim : Nat) (hnb : nb ≤ m.buf.length) :
    ∃ order m1, calc_dimstats qsort m nb dim = some (order, m1) ∧
      order.length = dim ∧ order.Perm (List.range dim) ∧
      (∀ j, j < dim → order.count j = 1) ∧ m1.buf = m.buf := by
  have hperm : ((qsort dim_compar
      (dimstats_diff ((m.buf.take nb).foldl dimstats_scan (dimstats_init dim)))).map
        (fun ds => ds.idx)).Perm (List.range dim) := by
    have h1 := (hq dim_compar
      (dimstats_diff ((m.buf.take nb).foldl dimstats_scan (dimstats_init dim)))).map
        (fun ds => ds.idx)
    rw [dimstats_diff_idx, dimstats_fold_idx, dimstats_init_idx] at h1
    exact h1
  refine ⟨_, { m with mallocs := m.mallocs + 2, frees := m.frees + 1 }, ?_, ?_, hperm,
    ?_, ?_⟩
  · unfold calc_dimstats
    rw [if_neg (by omega)]
  · rw [hperm.length_eq, List.length_range]
  · intro j hj
    rw [hperm.count_eq]
    exact List.count_eq_one_of_mem (List.nodup_range dim) (List.mem_range.mpr hj)
  · rfl

/-- Instance of C9 on the ten tuples of `sample10`. -/
theorem calc_dimstats_permutation_witness :
    ∃ order m1, calc_dimstats insertion_qsort ⟨sample10, 0, 0⟩ 10 2 = some (order, m1) ∧
      order.length = 2 ∧ order.Perm (List.range 2) ∧
      (∀ j, j < 2 → order.count j = 1) ∧ m1.buf = sample10 :=
  calc_dimstats_permutation insertion_qsort insertion_qsort_permutes ⟨sample10, 0, 0⟩ 10 2
    (by decide)

/-- C10 (scenario `N = 20`, `k = 2`, `AxisOrder = [0, 1]`). For every buffer of
twenty tuples `kdt_new` sorts the whole buffer on axis 0, then the window of the
first ten tuples on axis 1, then the window of the last nine on axis 1.  The root
is an internal node at index 10 with subtrees of 10 and 9 tuples; both are
internal nodes, at indices 5 and 15, with leaves of 5 and 4 and of 4 and 4
tuples: three internal nodes and four leaves, seven nodes in all. -/
theorem scenario_twenty (qsort_r : Sorter Tuple) (hq : SortPermutes qsort_r)
    (m : Mem) (h20 : m.buf.length = 20) :
    ∃ left right,
      kdt_new qsort_r m 0 20 2 [0, 1]
        = some ({ k := 2, root := kd_node.node 10 1 left right },
                { m with
                  buf := sort_window qsort_r (fun a b => kdt_compar a b 1)
                          (sort_window qsort_r (fun a b => kdt_compar a b 1)
                            (sort_window qsort_r (fun a b => kdt_compar a b 0) m.buf 0 20)
                            0 10)
                          11 9,
                  mallocs := m.mallocs + 7 }) ∧
      left = kd_node.node 5 1 (kd_node.node 0 5 kd_node.NULL kd_node.NULL)
                              (kd_node.node 6 4 kd_node.NULL kd_node.NULL) ∧
      right = kd_node.node 15 1 (kd_node.node 11 4 kd_node.NULL kd_node.NULL)
                                (kd_node.node 16 4 kd_node.NULL kd_node.NULL) ∧
      left.count = 10 ∧ right.count = 9 ∧
      (kd_node.node 10 1 left right).internal_count = 3 ∧
      (kd_node.node 10 1 left right).leaf_sizes = [5, 4, 4, 4] ∧
      (kd_node.node 10 1 left right).size = 7 ∧
      (kd_node.node 10 1 left right).count = 20 := by
  refine ⟨_, _, ?_, rfl, rfl, by decide, by decide, by decide, by decide, by decide,
    by decide⟩
  simp [kdt_new, kdt_new_in, kdt_new_in_fuel, sort_window_length qsort_r hq, h20]

/-- Instance of C10 on the twenty tuples of `sample20` with the insertion sort. -/
theorem scenario_twenty_witness :
    ∃ left right,
      kdt_new insertion_qsort ⟨sample20, 0, 0⟩ 0 20 2 [0, 1]
        = some ({ k := 2, root := kd_node.node 10 1 left right },
                { buf := sort_window insertion_qsort (fun a b => kdt_compar a b 1)
                          (sort_window insertion_qsort (fun a b => kdt_compar a b 1)
                            (sort_window insertion_qsort (fun a b => kdt_compar a b 0)
                              sample20 0 20)
                            0 10)
                          11 9,
                  mallocs := 0 + 7, frees := 0 }) ∧
      left = kd_node.node 5 1 (kd_node.node 0 5 kd_node.NULL kd_node.NULL)
                              (kd_node.node 6 4 kd_node.NULL kd_node.NULL) ∧
      right = kd_node.node 15 1 (kd_node.node 11 4 kd_node.NULL kd_node.NULL)
                                (kd_node.node 16 4 kd_node.NULL kd_node.NULL) ∧
      left.count = 10 ∧ right.count = 9 ∧
      (kd_node.node 10 1 left right).internal_count = 3 ∧
      (kd_node.node 10 1 left right).leaf_sizes = [5, 4, 4, 4] ∧
      (kd_node.node 10 1 left right).size = 7 ∧
      (kd_node.node 10 1 left right).count = 20 :=
  scenario_twenty insertion_qsort insertion_qsort_permutes ⟨sample20, 0, 0⟩ (by decide)

/-- C11 (teardown completeness). For a tree built by `kdt_new` from at least one
tuple, the root is present and one call of `kdt_cleanup` on it releases the
nodes in post-order (left subtree, right subtree, the node itself), every node
once: the released nodes are the post-order list of the tree, no node is in it
twice, and their number is the number of nodes allocated by the build.  The call
leaves `NULL` in the root and the buffer as it was. -/
theorem teardown_completeness (qsort_r : Sorter Tuple) (hq : SortPermutes qsort_r)
    (m : Mem) (k : Nat) (order : List Nat) (hk : 1 ≤ k) (ho : order.Perm (List.range k))
    (hN : 1 ≤ m.buf.length) :
    ∃ t m1, kdt_new qsort_r m 0 m.buf.length k order = some (t, m1) ∧
      t.root ≠ kd_node.NULL ∧
      kdt_cleanup t.root m1
        = some (kd_node.NULL,
                { buf := m1.buf, mallocs := m1.mallocs, frees := m1.frees + t.root.size },
                t.root.postorder) ∧
      t.root.postorder.length = t.root.size ∧
      (t.root.postorder.map Prod.fst).Nodup ∧
      m1.mallocs = m.mallocs + t.root.size := by
  obtain ⟨nd, w1, he, hb⟩ := kdt_new_built qsort_r k order hq hk (perm_range_length ho) m
  have hne : nd ≠ kd_node.NULL := hb.ne_null (by omega)
  exact ⟨_, _, he, hne, kdt_cleanup_present nd _ hne, postorder_length nd,
    hb.postorder_nodup hq, rfl⟩

/-- Instance of C11 on the twenty tuples of `sample20`. -/
theorem teardown_completeness_witness :
    ∃ t m1, kdt_new insertion_qsort ⟨sample20, 0, 0⟩ 0 20 2 [0, 1] = some (t, m1) ∧
      t.root ≠ kd_node.NULL ∧
      kdt_cleanup t.root m1
        = some (kd_node.NULL,
                { buf := m1.buf, mallocs := m1.mallocs, frees := m1.frees + t.root.size },
                t.root.postorder) ∧
      t.root.postorder.length = t.root.size ∧
      (t.root.postorder.map Prod.fst).Nodup ∧
      m1.mallocs = 0 + t.root.size :=
  teardown_completeness insertion_qsort insertion_qsort_permutes ⟨sample20, 0, 0⟩ 2 [0, 1]
    (by decide) (by decide) (by decide)

/-- C12 (determinism without ties), evaluated at `distinct9`. The nine values are
pairwise distinct and one window is sorted, the whole buffer.  The comparison of
`INT_MIN` with `0` overflows and comes out negative both ways, so the comparison
is not consistent and the library sort is not bound to one arrangement: the two
sorts, which both rearrange their window and sort it when the comparison is
consistent, build the same nodes and leave different buffers, with the split
tuple `[3]` in one and `[4]` in the other. -/
theorem determinism_overflow :
    SortPermutes (insertion_qsort : Sorter Tuple) ∧
    SortSorts (insertion_qsort : Sorter Tuple) ∧
    SortPermutes (reverse_qsort : Sorter Tuple) ∧
    SortSorts (reverse_qsort : Sorter Tuple) ∧
    (distinct9.map (fun t => comp t 0)).Nodup ∧
    kdt_compar [-2147483648] [0] 0 < 0 ∧ kdt_compar [0] [-2147483648] 0 < 0 ∧
    kdt_new insertion_qsort ⟨distinct9, 0, 0⟩ 0 9 1 [0]
      = some ({ k := 1,
                root := kd_node.node 4 1 (kd_node.node 0 4 kd_node.NULL kd_node.NULL)
                                         (kd_node.node 5 4 kd_node.NULL kd_node.NULL) },
              { buf := [[-2147483648], [0], [1], [2], [3], [4], [5], [6], [7]],
                mallocs := 3, frees := 0 }) ∧
    kdt_new reverse_qsort ⟨distinct9, 0, 0⟩ 0 9 1 [0]
      = some ({ k := 1,
                root := kd_node.node 4 1 (kd_node.node 0 4 kd_node.NULL kd_node.NULL)
                                         (kd_node.node 5 4 kd_node.NULL kd_node.NULL) },
              { buf := [[0], [1], [2], [3], [4], [5], [6], [7], [-2147483648]],
                mallocs := 3, frees := 0 }) ∧
    kdt_new insertion_qsort ⟨distinct9, 0, 0⟩ 0 9 1 [0]
      ≠ kdt_new reverse_qsort ⟨distinct9, 0, 0⟩ 0 9 1 [0] :=
  ⟨insertion_qsort_permutes, insertion_qsort_sorts, reverse_qsort_permutes,
    reverse_qsort_sorts, by decide, by decide, by decide, by decide, by decide, by decide⟩

/-- C13 (termination with ties), evaluated at `ties20`, whose tuples all have the
same value on dimension 0. `kdt_new_in` returns a tree, of seven nodes; the
window of the first ten tuples is sorted on dimension 1, where the comparison of
`INT_MAX` with `-2` overflows, so the tuples with `INT_MAX` come first, the split
tuple at index 5 has `-2`, and the split ordering fails. -/
theorem ties_overflow :
    kdt_new_in insertion_qsort 2 [0, 1] ⟨ties20, 0, 0⟩ 0 20 0
      = some (kd_node.node 10 1
                (kd_node.node 5 1 (kd_node.node 0 5 kd_node.NULL kd_node.NULL)
                                  (kd_node.node 6 4 kd_node.NULL kd_node.NULL))
                (kd_node.node 15 1 (kd_node.node 11 4 kd_node.NULL kd_node.NULL)
                                   (kd_node.node 16 4 kd_node.NULL kd_node.NULL)),
              { buf := [[7, 2147483647], [7, 2147483647], [7, 2147483647],
                        [7, 2147483647], [7, 2147483647],
                        [7, -2], [7, -2], [7, -2], [7, -2], [7, -2],
                        [7, 2147483647], [7, 2147483647], [7, 2147483647],
                        [7, 2147483647], [7, 2147483647],
                        [7, -2], [7, -2], [7, -2], [7, -2], [7, -2]],
                mallocs := 7, frees := 0 }) ∧
    (kd_node.node 10 1
        (kd_node.node 5 1 (kd_node.node 0 5 kd_node.NULL kd_node.NULL)
                          (kd_node.node 6 4 kd_node.NULL kd_node.NULL))
        (kd_node.node 15 1 (kd_node.node 11 4 kd_node.NULL kd_node.NULL)
                           (kd_node.node 16 4 kd_node.NULL kd_node.NULL))).split_ordered
      [[7, 2147483647], [7, 2147483647], [7, 2147483647], [7, 2147483647],
       [7, 2147483647], [7, -2], [7, -2], [7, -2], [7, -2], [7, -2],
       [7, 2147483647], [7, 2147483647], [7, 2147483647], [7, 2147483647],
       [7, 2147483647], [7, -2], [7, -2], [7, -2], [7, -2], [7, -2]] 2 [0, 1] 0
      = false := by
  decide

/-- C15 (the comparison function), evaluated at `INT_MAX` and `-2`. `INT_MAX` is
the larger value, and `kdt_compar` returns a negative number for it against
`-2` and a positive number the other way round; `INT_MIN` against `0` comes
out negative both ways. -/
theorem kdt_compar_overflow :
    comp [-2] 0 < comp [2147483647] 0 ∧
    kdt_compar [2147483647] [-2] 0 = -2147483647 ∧
    kdt_compar [-2] [2147483647] 0 = 2147483647 ∧
    kdt_compar [-2147483648] [0] 0 = -2147483648 ∧
    kdt_compar [0] [-2147483648] 0 = -2147483648 := by
  decide

/-- C16 (internal nodes are full). In a tree built by `kdt_new` every node has
either no child, or two children, `nb = 1` and at least four tuples in each
subtree; a node has no child exactly when it holds between 1 and 8 tuples; and
when the buffer has more than eight tuples every leaf has `4 ≤ nb ≤ 8`. -/
theorem internal_nodes_full (qsort_r : Sorter Tuple) (hq : SortPermutes qsort_r)
    (m : Mem) (k : Nat) (order : List Nat) (hk : 1 ≤ k) (ho : order.Perm (List.range k)) :
    ∃ t m1, kdt_new qsort_r m 0 m.buf.length k order = some (t, m1) ∧
      t.root.all_nodes kd_node.full ∧
      t.root.all_nodes (fun x => x.is_leaf = true ↔ 1 ≤ x.count ∧ x.count ≤ 8) ∧
      (8 < m.buf.length → ∀ nb ∈ t.root.leaf_sizes, 4 ≤ nb ∧ nb ≤ 8) := by
  obtain ⟨nd, w1, he, hb⟩ := kdt_new_built qsort_r k order hq hk (perm_range_length ho) m
  refine ⟨_, _, he, hb.full_nodes hq, hb.all_leaf_iff hq, ?_⟩
  intro h8 nb hnb
  exact ⟨hb.leaf_sizes_ge hq (by omega) nb hnb, (hb.leaf_sizes_bound hq nb hnb).2⟩

/-- Instance of C16 on the twenty tuples of `sample20`. -/
theorem internal_nodes_full_witness :
    ∃ t m1, kdt_new insertion_qsort ⟨sample20, 0, 0⟩ 0 20 2 [0, 1] = some (t, m1) ∧
      t.root.all_nodes kd_node.full ∧
      t.root.all_nodes (fun x => x.is_leaf = true ↔ 1 ≤ x.count ∧ x.count ≤ 8) ∧
      (8 < 20 → ∀ nb ∈ t.root.leaf_sizes, 4 ≤ nb ∧ nb ≤ 8) :=
  internal_nodes_full insertion_qsort insertion_qsort_permutes ⟨sample20, 0, 0⟩ 2 [0, 1]
    (by decide) (by decide)

/-- C19 (teardown of any built tree), evaluated at `N = 0`. `kdt_new` on no tuples
returns a tree whose root is `NULL`, and `kdt_cleanup` on that root reads
`m->left` through the `NULL` pointer: the call has no result. -/
theorem teardown_absent_root (qsort_r : Sorter Tuple) (k : Nat) (order : List Nat)
    (m : Mem) :
    kdt_new qsort_r m 0 0 k order = some ({ k := k, root := kd_node.NULL }, m) ∧
    kdt_cleanup kd_node.NULL m = none := by
  refine ⟨?_, rfl⟩
  simp [kdt_new, kdt_new_in, kdt_new_in_fuel]

/-- C20 (index safety of the builder), amended: the elements of the window fit a
C `int`.  For `k ≥ 1`, an axis order that is a permutation of `0..k-1`, a buffer
of tuples of `k` components and a window of `n` tuples inside it with
`n*k ≤ INT_MAX`, the call of `kdt_new_in` returns, with the result of the
builder, and every index computation of the call and of the calls below it is in
range: the divisor `t->k` is not zero, the index `depth % t->k` is inside the
order array, the axis read is below `k` and so a component of every tuple, and
the windows passed on and the split tuple lie inside the window of the call.
The record holds the read of the order array for `n ≥ 1` and the pointer
arithmetic for `n > 8`.  `kdt_new` is the call on the whole buffer at depth `k`. -/
theorem index_safety (qsort_r : Sorter Tuple) (hq : SortPermutes qsort_r)
    (k : Nat) (order : List Nat) (hk : 1 ≤ k) (ho : order.Perm (List.range k))
    (m : Mem) (hdim : ∀ t ∈ m.buf, t.length = k)
    (points n depth : Nat) (hin : points + n ≤ m.buf.length)
    (hsz : n * k ≤ 2147483647) :
    ∃ nd m1 uses,
      kdt_new_in_log qsort_r k order m points n depth = some (nd, m1, uses) ∧
      kdt_new_in qsort_r k order m points n depth = some (nd, m1) ∧
      (∀ u ∈ uses, u.in_range order k) ∧
      (∀ t ∈ m1.buf, t.length = k) ∧
      (1 ≤ n → ∃ axis, order[depth % k]? = some axis ∧
        index_use.lookup depth k (depth % k) axis ∈ uses) ∧
      (8 < n →
        index_use.split k n (n / 2) (((n / 2 : Nat) : Int) * (k : Int))
          ((((n / 2 : Nat) : Int) + 1) * (k : Int)) (n / 2) (n - n / 2 - 1) ∈ uses) ∧
      (points = 0 → n = m.buf.length → depth = k →
        kdt_new qsort_r m 0 m.buf.length k order = some ({ k := k, root := nd }, m1)) := by
  have hol := perm_range_length ho
  obtain ⟨nd, w1, he, hb⟩ :=
    kdt_new_in_built qsort_r k order hq hk hol m points n depth hin
  have heq := kdt_new_in_traced_eq qsort_r k order (n + 1) m points n depth
  have he2 := he
  unfold kdt_new_in at he2
  rw [he2] at heq
  cases hT : kdt_new_in_traced qsort_r k order (n + 1) m points n depth with
  | none => rw [hT] at heq; simp at heq
  | some r =>
    obtain ⟨nd2, m2, uses⟩ := r
    rw [hT] at heq
    simp only [Option.map_some', Option.some.injEq, Prod.mk.injEq] at heq
    obtain ⟨e1, e2⟩ := heq
    subst e1
    refine ⟨nd2, m2, uses, hT, ?_, ?_, ?_, ?_, ?_, ?_⟩
    · rw [he, e2]
    · exact kdt_new_in_traced_in_range qsort_r k order hk ho (n + 1) m points n depth
        nd2 m2 uses hT hsz
    · rw [e2]
      intro t ht
      simp only [List.mem_append] at ht
      rcases ht with (h1 | h1) | h1
      · exact hdim t (List.mem_of_mem_take h1)
      · have h2 : t ∈ (m.buf.drop points).take n := (hb.perm hq).mem_iff.mp h1
        exact hdim t (List.mem_of_mem_drop (List.mem_of_mem_take h2))
      · exact hdim t (List.mem_of_mem_drop h1)
    · intro h1
      exact kdt_new_in_traced_lookup qsort_r k order n m points n depth nd2 m2 uses
        (by omega) hT
    · intro h8
      have hmem := kdt_new_in_traced_split qsort_r k order n m points n depth nd2 m2 uses
        h8 hT
      have hr := split_in_range order k n h8 hsz
      have hnat : n / 2 * k + k ≤ n * k := by
        have e : n / 2 + 1 ≤ n := by omega
        calc n / 2 * k + k = (n / 2 + 1) * k := by rw [Nat.add_mul, Nat.one_mul]
          _ ≤ n * k := Nat.mul_le_mul_right k e
      have hint : ((n / 2 : Nat) : Int) * (k : Int) + (k : Int) ≤ 2147483647 := by
        have : ((n / 2 * k + k : Nat) : Int) ≤ 2147483647 := by
          exact_mod_cast le_trans hnat hsz
        push_cast at this
        exact this
      have ha : (0 : Int) ≤ ((n / 2 : Nat) : Int) * (k : Int) :=
        Int.mul_nonneg (Int.ofNat_nonneg _) (Int.ofNat_nonneg _)
      have hk2 : (0 : Int) ≤ (k : Int) := Int.ofNat_nonneg _
      have hright : (((n / 2 : Nat) : Int) + 1) * (k : Int)
          = ((n / 2 : Nat) : Int) * (k : Int) + (k : Int) := by ring
      rw [wrap32_small _ (by omega) (by omega),
        wrap32_small ((((n / 2 : Nat) : Int) + 1) * (k : Int))
          (by rw [hright]; omega) (by rw [hright]; omega)] at hmem
      exact hmem
    · intro hp hn hd
      subst hp hd
      unfold kdt_new
      rw [← hn, he, e2]

/-- Instance of C20: the window of the last nine tuples of `sample20` at depth 3. -/
theorem index_safety_witness :
    ∃ nd m1 uses,
      kdt_new_in_log insertion_qsort 2 [0, 1] ⟨sample20, 0, 0⟩ 11 9 3
        = some (nd, m1, uses) ∧
      kdt_new_in insertion_qsort 2 [0, 1] ⟨sample20, 0, 0⟩ 11 9 3 = some (nd, m1) ∧
      (∀ u ∈ uses, u.in_range [0, 1] 2) ∧
      (∀ t ∈ m1.buf, t.length = 2) ∧
      (1 ≤ 9 → ∃ axis, ([0, 1] : List Nat)[3 % 2]? = some axis ∧
        index_use.lookup 3 2 (3 % 2) axis ∈ uses) ∧
      (8 < 9 →
        index_use.split 2 9 (9 / 2) (((9 / 2 : Nat) : Int) * ((2 : Nat) : Int))
          ((((9 / 2 : Nat) : Int) + 1) * ((2 : Nat) : Int)) (9 / 2) (9 - 9 / 2 - 1)
          ∈ uses) ∧
      (11 = 0 → 9 = sample20.length → 3 = 2 →
        kdt_new insertion_qsort ⟨sample20, 0, 0⟩ 0 sample20.length 2 [0, 1]
          = some ({ k := 2, root := nd }, m1)) :=
  index_safety insertion_qsort insertion_qsort_permutes 2 [0, 1] (by decide) (by decide)
    ⟨sample20, 0, 0⟩ (by decide) 11 9 3 (by decide) (by decide)

/-- C20 as stated fails at `huge_buffer`: `N = 2^30` tuples of `k = 4` components.
The call of `kdt_new` on the whole buffer computes `median*t->k = 2^29 * 4` and
`(median+1)*t->k = (2^29 + 1) * 4` in `int`; both overflow, to `-2147483648` and
`-2147483644`, so the split tuple and the right window start before the window
of the call. -/
theorem index_offset_overflow :
    ∃ nd m1 uses,
      kdt_new_in_log insertion_qsort 4 [0, 1, 2, 3] ⟨huge_buffer, 0, 0⟩ 0 1073741824 4
        = some (nd, m1, uses) ∧
      kdt_new insertion_qsort ⟨huge_buffer, 0, 0⟩ 0 1073741824 4 [0, 1, 2, 3]
        = some ({ k := 4, root := nd }, m1) ∧
      index_use.split 4 1073741824 536870912 (-2147483648) (-2147483644)
        536870912 536870911 ∈ uses ∧
      ¬ (index_use.split 4 1073741824 536870912 (-2147483648) (-2147483644)
          536870912 536870911).in_range [0, 1, 2, 3] 4 := by
  have hlen : huge_buffer.length = 1073741824 := by
    simp only [huge_buffer, List.length_replicate]
  obtain ⟨nd, w1, he, _⟩ :=
    kdt_new_in_built insertion_qsort 4 [0, 1, 2, 3] insertion_qsort_permutes (by decide)
      (by decide) ⟨huge_buffer, 0, 0⟩ 0 1073741824 4 (Nat.le_of_eq hlen.symm)
  have heq := kdt_new_in_traced_eq insertion_qsort 4 [0, 1, 2, 3] (1073741824 + 1)
    ⟨huge_buffer, 0, 0⟩ 0 1073741824 4
  have he2 := he
  unfold kdt_new_in at he2
  rw [he2] at heq
  cases hT : kdt_new_in_traced insertion_qsort 4 [0, 1, 2, 3] (1073741824 + 1)
      ⟨huge_buffer, 0, 0⟩ 0 1073741824 4 with
  | none => rw [hT] at heq; simp at heq
  | some r =>
    obtain ⟨nd2, m2, uses⟩ := r
    rw [hT] at heq
    simp only [Option.map_some', Option.some.injEq, Prod.mk.injEq] at heq
    obtain ⟨e1, e2⟩ := heq
    subst e1
    have hmem := kdt_new_in_traced_split insertion_qsort 4 [0, 1, 2, 3] 1073741824
      ⟨huge_buffer, 0, 0⟩ 0 1073741824 4 nd2 m2 uses (by decide) hT
    have hv : wrap32 (((1073741824 / 2 : Nat) : Int) * ((4 : Nat) : Int))
        = -2147483648 := by decide
    have hr : wrap32 ((((1073741824 / 2 : Nat) : Int) + 1) * ((4 : Nat) : Int))
        = -2147483644 := by decide
    rw [hv, hr] at hmem
    refine ⟨nd2, m2, uses, hT, ?_, hmem, ?_⟩
    · apply kdt_new_of_root_call
      rw [he, e2]
    · intro h
      exact absurd h.2.1 (by decide)

end KdTree
